import Mathlib

/-!
Verification model of the per-key delay/dispatch coordinator in
`delaycall/main.go` (package `delaycall`).

The Go program consists of
  * a single dispatcher goroutine `processor` reading `Request`s from
    `externalCh` and, under the mutex `mu`, either forwarding a request to
    an active per-key worker (`activeDelayers[req.UID]`), spawning a new
    worker (when `req.NeedsDelay` and no entry exists), or calling
    `callService` directly;
  * per-key worker goroutines `userDelayer(uid, ch)` that drain their
    private buffered channel (capacity 1000), call `callService` for each
    request, sleep a full `delay` window after every delay-flagged request
    received in the select loop, and self-expire when their 100ms idle
    timer fires while the channel is empty (removing the routing entry and
    closing the channel under `mu`);
  * a monitor goroutine (in `init`) asserting that the ids sent to
    `checkCh` by `callService` increase contiguously from 0, panicking
    otherwise.

We embed this as a labeled small-step transition system.  Modelling notes:
  * One atomic step per Go statement that touches shared state.  Critical
    sections of a worker (timer-expiry re-check, and the dead `!ok` seed
    branch) contain no blocking operation, so each is one atomic step
    guarded by "the dispatcher does not hold the mutex"; the dispatcher's
    critical section is split (lock acquisition / in-section sends) because
    the in-section channel send can block while the mutex is held.
  * Time is a natural-number clock `now` (milliseconds) advanced by an
    interleaved `tick` step; `time.NewTimer`/`Reset` arm a deadline
    `now + delay` and the timer-fired select branch is enabled once
    `now ≥ deadline`.  The module requires Go 1.23, whose timer-channel
    semantics guarantee that `Stop`/`Reset` discard pending fires, so a
    timer fire is consumed exactly at the `wFire` step and no stale fire
    survives a `Stop`/`Reset`.
  * `callService`'s send on `checkCh` is recorded in `sinkLog` (the
    monitor drains `checkCh` continuously, so its FIFO order is the send
    order); its random `time.Sleep` is subsumed by arbitrary interleaved
    `tick` steps.  `rand` only influences durations and flags, which the
    model leaves nondeterministic.
  * Ghost (history) fields, which influence no step guard: `reads` (the
    dispatch order in which the dispatcher consumed requests), `sinkLog`
    (the order of `callService` invocations, with caller and time), and
    per-worker `lastEnq`/`lastSink` timestamps.
  * A channel close on an already-closed channel or a send on a closed
    channel sets the `crashed` flag (a Go runtime panic).
-/

namespace DelayCall

/-- Go: `type Request struct { UID string; Payload string; NeedsDelay bool; id int64 }`. -/
structure Request where
  UID : String
  Payload : String
  NeedsDelay : Bool
  id : Int
deriving DecidableEq

/-- Go: `const delay = 100 * time.Millisecond`, measured here in milliseconds. -/
def delay : Nat := 100

/-- Go: `ch = make(chan Request, 1000)` — the per-key queue capacity. -/
def chanCap : Nat := 1000

/-- Which code path performed a `callService` invocation: the dispatcher
(`MAIN` path in `processor`) or the worker goroutine of index `wid`. -/
inductive Caller where
  | main : Caller
  | delayer (wid : Nat) : Caller
deriving DecidableEq

/-- One Execution Sink invocation (`callService(r)`): the request, the
calling component, and the clock value at the call. -/
structure SinkEv where
  req : Request
  who : Caller
  time : Nat
deriving DecidableEq

/-- Program counter of a worker goroutine `userDelayer(uid, ch)`.
The payloads record the local variables live at that point. -/
inductive WPc where
  /-- blocked at `req, ok := <-ch` (line 65). -/
  | seed0 : WPc
  /-- received the seed request, about to run `callService(req)` (line 74). -/
  | seedGot (r : Request) : WPc
  /-- took the `!ok` branch of the seed receive (line 66), about to lock. -/
  | seedCl : WPc
  /-- seed `callService` done, about to run `timer := time.NewTimer(delay)` (line 79). -/
  | seedAfter : WPc
  /-- blocked in `select` with the idle timer armed to fire at `d` (lines 81-99). -/
  | loop (d : Nat) : WPc
  /-- the timer fired and the fire was consumed; about to `mu.Lock()` (line 100). -/
  | firing : WPc
  /-- received `nextReq` from `ch`, about to run `callService(nextReq)` (line 89). -/
  | got (r : Request) : WPc
  /-- ran `callService(nextReq)`; before the `NeedsDelay` check (line 92). -/
  | after (r : Request) : WPc
  /-- inside `time.Sleep(delay)` (line 93), waking at time `t`. -/
  | sleeping (t : Nat) : WPc
  /-- the goroutine returned. -/
  | done : WPc
deriving DecidableEq

/-- Program counter of the dispatcher goroutine `processor`. -/
inductive DPc where
  /-- at the head of `for req := range externalCh` (line 33). -/
  | idle : DPc
  /-- read `r`, about to `mu.Lock()` (line 34). -/
  | locking (r : Request) : DPc
  /-- holds `mu`, inside the critical section for `r` (lines 35-54). -/
  | cs (r : Request) : DPc
  /-- released `mu` on the plain path, about to `callService(r)` (line 56). -/
  | sink (r : Request) : DPc
  /-- the channel `externalCh` was exhausted and the range loop ended. -/
  | finished : DPc
deriving DecidableEq

/-- State of one worker goroutine together with its private channel
(the channel is created with the worker in `processor` and referenced
only by that worker and, through `activeDelayers`, the dispatcher). -/
structure Worker where
  /-- the `uid` argument of `userDelayer`. -/
  uid : String
  pc : WPc
  /-- buffered contents of `ch` (front = next to receive). -/
  buf : List Request
  /-- whether `close(ch)` has run. -/
  closed : Bool
  /-- ghost: clock value of the most recent send on `ch` (0 before any). -/
  lastEnq : Nat
  /-- ghost: clock value of this worker's most recent `callService` (0 before any). -/
  lastSink : Nat
deriving DecidableEq

instance : Inhabited Worker := ⟨⟨"", .done, [], false, 0, 0⟩⟩

/-- Global state of the program.  `workers wid` is meaningful for
`wid < nworkers`; worker indices double as channel identities since each
`go userDelayer` call creates exactly one fresh channel. -/
structure Config where
  /-- requests not yet read from `externalCh`, in stream order. -/
  input : List Request
  /-- ghost: requests already read by the dispatcher, in read order. -/
  reads : List Request
  dpc : DPc
  /-- whether the dispatcher holds `mu` across a state (workers hold it
      only inside single atomic steps). -/
  dLock : Bool
  /-- Go: `activeDelayers map[string]chan Request`, as key ↦ worker index. -/
  table : String → Option Nat
  workers : Nat → Worker
  nworkers : Nat
  /-- ghost: the `callService` invocations so far, in `checkCh` send order. -/
  sinkLog : List SinkEv
  /-- clock, in milliseconds. -/
  now : Nat
  /-- a Go runtime panic occurred (send on closed / close of closed channel). -/
  crashed : Bool

/-- The initial state: the driver's request stream is `inp`; no worker, an
empty routing table, clock 0. -/
def startCfg (inp : List Request) : Config :=
  { input := inp, reads := [], dpc := .idle, dLock := false
    table := fun _ => none, workers := fun _ => default, nworkers := 0
    sinkLog := [], now := 0, crashed := false }

/-- Labels of the transition relation: which statement of which goroutine
ran.  `d…` labels are dispatcher statements, `w… wid` labels are
statements of worker `wid`, `tick` is the passage of one millisecond. -/
inductive Label where
  | dRead (r : Request) | dEnd | dLock (r : Request)
  | dRoute (r : Request) (wid : Nat) | dRouteClosed (r : Request) (wid : Nat)
  | dSpawn (r : Request) | dDirect (r : Request) | dSink (r : Request)
  | wSeedRecv (wid : Nat) (r : Request) | wSeedClosed (wid : Nat)
  | wSeedPanic (wid : Nat)
  | wSeedSink (wid : Nat) (r : Request) | wSeedArm (wid : Nat)
  | wRecv (wid : Nat) (r : Request) | wRecvClosed (wid : Nat)
  | wFire (wid : Nat)
  | wSink (wid : Nat) (r : Request) | wSleep (wid : Nat) | wArm (wid : Nat)
  | wWake (wid : Nat) | wExtend (wid : Nat) | wShutdown (wid : Nat)
  | tick
deriving DecidableEq

/-- Returns `true` on labels of dispatcher statements. -/
def Label.isDisp : Label → Bool
  | .dRead _ | .dEnd | .dLock _ | .dRoute _ _ | .dRouteClosed _ _
  | .dSpawn _ | .dDirect _ | .dSink _ => true
  | _ => false

/-- The worker index a label belongs to, if it is a worker statement. -/
def Label.widOf : Label → Option Nat
  | .wSeedRecv wid _ | .wSeedClosed wid | .wSeedPanic wid
  | .wSeedSink wid _ | .wSeedArm wid
  | .wRecv wid _ | .wRecvClosed wid | .wFire wid
  | .wSink wid _ | .wSleep wid | .wArm wid
  | .wWake wid | .wExtend wid | .wShutdown wid => some wid
  | _ => none

/-- One atomic step of the program.  Each constructor is annotated with the
`delaycall/main.go` lines it embeds. -/
inductive Step : Config → Label → Config → Prop where
  /-- line 33: `for req := range externalCh` reads the next request. -/
  | dRead (c : Config) (r : Request) (rest : List Request)
      (hpc : c.dpc = .idle) (hin : c.input = r :: rest) :
      Step c (.dRead r)
        { c with input := rest, reads := c.reads ++ [r], dpc := .locking r }
  /-- line 33: `externalCh` closed and drained; the range loop ends. -/
  | dEnd (c : Config)
      (hpc : c.dpc = .idle) (hin : c.input = []) :
      Step c .dEnd { c with dpc := .finished }
  /-- line 34: `mu.Lock()`. -/
  | dLock (c : Config) (r : Request)
      (hpc : c.dpc = .locking r) (hl : c.dLock = false) :
      Step c (.dLock r) { c with dpc := .cs r, dLock := true }
  /-- lines 35-42: an entry exists, so `ch <- req` (the channel has free
      space and is open) and `mu.Unlock()`. -/
  | dRoute (c : Config) (r : Request) (wid : Nat)
      (hpc : c.dpc = .cs r) (ht : c.table r.UID = some wid)
      (hcl : (c.workers wid).closed = false)
      (hcap : (c.workers wid).buf.length < chanCap) :
      Step c (.dRoute r wid)
        { c with
            workers := Function.update c.workers wid
              { c.workers wid with
                  buf := (c.workers wid).buf ++ [r], lastEnq := c.now }
            dLock := false, dpc := .idle }
  /-- lines 35-42 when the looked-up channel is closed: `ch <- req`
      panics (send on closed channel). -/
  | dRouteClosed (c : Config) (r : Request) (wid : Nat)
      (hpc : c.dpc = .cs r) (ht : c.table r.UID = some wid)
      (hcl : (c.workers wid).closed = true) :
      Step c (.dRouteClosed r wid) { c with crashed := true }
  /-- lines 44-51: no entry and `req.NeedsDelay`: create the channel,
      install the entry, enqueue the seed, `mu.Unlock()`, `go userDelayer`. -/
  | dSpawn (c : Config) (r : Request)
      (hpc : c.dpc = .cs r) (ht : c.table r.UID = none)
      (hd : r.NeedsDelay = true) :
      Step c (.dSpawn r)
        { c with
            workers := Function.update c.workers c.nworkers
              { uid := r.UID, pc := .seed0, buf := [r], closed := false
                lastEnq := c.now, lastSink := 0 }
            nworkers := c.nworkers + 1
            table := Function.update c.table r.UID (some c.nworkers)
            dLock := false, dpc := .idle }
  /-- lines 53-54: no entry and not `NeedsDelay`: `mu.Unlock()`. -/
  | dDirect (c : Config) (r : Request)
      (hpc : c.dpc = .cs r) (ht : c.table r.UID = none)
      (hd : r.NeedsDelay = false) :
      Step c (.dDirect r) { c with dLock := false, dpc := .sink r }
  /-- line 56: `callService(req)` on the plain path. -/
  | dSink (c : Config) (r : Request)
      (hpc : c.dpc = .sink r) :
      Step c (.dSink r)
        { c with sinkLog := c.sinkLog ++ [⟨r, .main, c.now⟩], dpc := .idle }
  /-- line 65: `req, ok := <-ch` delivers the seed request. -/
  | wSeedRecv (c : Config) (wid : Nat) (r : Request) (brest : List Request)
      (hw : wid < c.nworkers) (hpc : (c.workers wid).pc = .seed0)
      (hb : (c.workers wid).buf = r :: brest) :
      Step c (.wSeedRecv wid r)
        { c with
            workers := Function.update c.workers wid
              { c.workers wid with pc := .seedGot r, buf := brest } }
  /-- line 66: the seed receive found the channel closed and empty. -/
  | wSeedClosed (c : Config) (wid : Nat)
      (hw : wid < c.nworkers) (hpc : (c.workers wid).pc = .seed0)
      (hb : (c.workers wid).buf = []) (hcl : (c.workers wid).closed = true) :
      Step c (.wSeedClosed wid)
        { c with
            workers := Function.update c.workers wid
              { c.workers wid with pc := .seedCl } }
  /-- lines 67-71: the `!ok` branch locks, deletes the entry and runs
      `close(ch)` on the already-closed channel — a runtime panic. -/
  | wSeedPanic (c : Config) (wid : Nat)
      (hw : wid < c.nworkers) (hpc : (c.workers wid).pc = .seedCl)
      (hl : c.dLock = false) :
      Step c (.wSeedPanic wid)
        { c with
            table := Function.update c.table (c.workers wid).uid none
            workers := Function.update c.workers wid
              { c.workers wid with pc := .done }
            crashed := true }
  /-- line 74: `callService(req)` for the seed request. -/
  | wSeedSink (c : Config) (wid : Nat) (r : Request)
      (hw : wid < c.nworkers) (hpc : (c.workers wid).pc = .seedGot r) :
      Step c (.wSeedSink wid r)
        { c with
            sinkLog := c.sinkLog ++ [⟨r, .delayer wid, c.now⟩]
            workers := Function.update c.workers wid
              { c.workers wid with pc := .seedAfter, lastSink := c.now } }
  /-- line 79: `timer := time.NewTimer(delay)`. -/
  | wSeedArm (c : Config) (wid : Nat)
      (hw : wid < c.nworkers) (hpc : (c.workers wid).pc = .seedAfter) :
      Step c (.wSeedArm wid)
        { c with
            workers := Function.update c.workers wid
              { c.workers wid with pc := .loop (c.now + delay) } }
  /-- lines 82-87: the select takes `nextReq, ok := <-ch` with a buffered
      request; `timer.Stop()` discards any pending fire (Go 1.23). -/
  | wRecv (c : Config) (wid : Nat) (d : Nat) (r : Request) (brest : List Request)
      (hw : wid < c.nworkers) (hpc : (c.workers wid).pc = .loop d)
      (hb : (c.workers wid).buf = r :: brest) :
      Step c (.wRecv wid r)
        { c with
            workers := Function.update c.workers wid
              { c.workers wid with pc := .got r, buf := brest } }
  /-- lines 84-87: the receive reports `!ok` (channel closed and empty);
      the goroutine returns without touching the routing table. -/
  | wRecvClosed (c : Config) (wid : Nat) (d : Nat)
      (hw : wid < c.nworkers) (hpc : (c.workers wid).pc = .loop d)
      (hb : (c.workers wid).buf = []) (hcl : (c.workers wid).closed = true) :
      Step c (.wRecvClosed wid)
        { c with
            workers := Function.update c.workers wid
              { c.workers wid with pc := .done } }
  /-- line 99: the armed timer fires (only once `now` reaches the
      deadline) and the select consumes the fire. -/
  | wFire (c : Config) (wid : Nat) (d : Nat)
      (hw : wid < c.nworkers) (hpc : (c.workers wid).pc = .loop d)
      (hd : d ≤ c.now) :
      Step c (.wFire wid)
        { c with
            workers := Function.update c.workers wid
              { c.workers wid with pc := .firing } }
  /-- line 89: `callService(nextReq)`. -/
  | wSink (c : Config) (wid : Nat) (r : Request)
      (hw : wid < c.nworkers) (hpc : (c.workers wid).pc = .got r) :
      Step c (.wSink wid r)
        { c with
            sinkLog := c.sinkLog ++ [⟨r, .delayer wid, c.now⟩]
            workers := Function.update c.workers wid
              { c.workers wid with pc := .after r, lastSink := c.now } }
  /-- lines 92-94: `nextReq.NeedsDelay`, so enter `time.Sleep(delay)`. -/
  | wSleep (c : Config) (wid : Nat) (r : Request)
      (hw : wid < c.nworkers) (hpc : (c.workers wid).pc = .after r)
      (hd : r.NeedsDelay = true) :
      Step c (.wSleep wid)
        { c with
            workers := Function.update c.workers wid
              { c.workers wid with pc := .sleeping (c.now + delay) } }
  /-- line 96: no sleep needed; `timer.Reset(delay)` re-arms the timer. -/
  | wArm (c : Config) (wid : Nat) (r : Request)
      (hw : wid < c.nworkers) (hpc : (c.workers wid).pc = .after r)
      (hd : r.NeedsDelay = false) :
      Step c (.wArm wid)
        { c with
            workers := Function.update c.workers wid
              { c.workers wid with pc := .loop (c.now + delay) } }
  /-- lines 93-96: the sleep elapses and `timer.Reset(delay)` runs. -/
  | wWake (c : Config) (wid : Nat) (t : Nat)
      (hw : wid < c.nworkers) (hpc : (c.workers wid).pc = .sleeping t)
      (hd : t ≤ c.now) :
      Step c (.wWake wid)
        { c with
            workers := Function.update c.workers wid
              { c.workers wid with pc := .loop (c.now + delay) } }
  /-- lines 100-107: under `mu`, `len(ch) > 0`, so `timer.Reset(delay)`
      and keep the entry, consuming nothing. -/
  | wExtend (c : Config) (wid : Nat)
      (hw : wid < c.nworkers) (hpc : (c.workers wid).pc = .firing)
      (hl : c.dLock = false) (hb : (c.workers wid).buf ≠ []) :
      Step c (.wExtend wid)
        { c with
            workers := Function.update c.workers wid
              { c.workers wid with pc := .loop (c.now + delay) } }
  /-- lines 109-115: under `mu`, the channel is empty: delete the entry,
      `close(ch)`, unlock, return. -/
  | wShutdown (c : Config) (wid : Nat)
      (hw : wid < c.nworkers) (hpc : (c.workers wid).pc = .firing)
      (hl : c.dLock = false) (hb : (c.workers wid).buf = []) :
      Step c (.wShutdown wid)
        { c with
            table := Function.update c.table (c.workers wid).uid none
            workers := Function.update c.workers wid
              { c.workers wid with pc := .done, closed := true } }
  /-- one millisecond passes. -/
  | tick (c : Config) : Step c .tick { c with now := c.now + 1 }

/-- State `c` is reachable from the initial state on input stream `inp`. -/
def Reachable (inp : List Request) (c : Config) : Prop :=
  Relation.ReflTransGen (fun a b => ∃ l, Step a l b) (startCfg inp) c

/-- The requests for key `k` read from the stream so far, in read order. -/
def readsFor (c : Config) (k : String) : List Request :=
  c.reads.filter (fun r => r.UID == k)

/-- The requests for key `k` passed to the Execution Sink so far, in
invocation order. -/
def sinkFor (c : Config) (k : String) : List Request :=
  (c.sinkLog.filter (fun e => e.req.UID == k)).map SinkEv.req

/-- The request a worker has received from its channel but not yet passed
to the sink (between a receive and the following `callService`). -/
def heldOf (w : Worker) : List Request :=
  match w.pc with
  | .seedGot r => [r]
  | .got r => [r]
  | _ => []

/-- Value of `heldOf` for the worker the routing table assigns to `k`. -/
def heldFor (c : Config) (k : String) : List Request :=
  match c.table k with
  | some wid => heldOf (c.workers wid)
  | none => []

/-- The queue contents of the worker the routing table assigns to `k`. -/
def bufFor (c : Config) (k : String) : List Request :=
  match c.table k with
  | some wid => (c.workers wid).buf
  | none => []

/-- The request the dispatcher has read but neither enqueued nor executed
yet, if it is for key `k`. -/
def dispFor (c : Config) (k : String) : List Request :=
  match c.dpc with
  | .locking r => if r.UID == k then [r] else []
  | .cs r => if r.UID == k then [r] else []
  | .sink r => if r.UID == k then [r] else []
  | _ => []

/-- Concrete requests driving the executable scenarios below: a
delay-flagged request and a plain one, both for the same key. -/
def rA : Request := ⟨"user1", "a", true, 0⟩

def rB : Request := ⟨"user1", "b", false, 1⟩

def cexInp : List Request := [rA, rB]

/-- Stages of a concrete execution of the model on `cexInp`, at clock 0
throughout: the dispatcher reads `rA`, spawns worker 0 seeded with it, the
worker sinks the seed and arms its timer, the dispatcher routes `rB` to
the worker, and the worker sinks `rB` — all without any sleep. -/
def cfgA1 : Config :=
  { startCfg cexInp with input := [rB], reads := [rA], dpc := .locking rA }

def cfgA2 : Config := { cfgA1 with dpc := .cs rA, dLock := true }

def cfgA3 : Config :=
  { cfgA2 with
      workers := Function.update cfgA2.workers 0 ⟨"user1", .seed0, [rA], false, 0, 0⟩
      nworkers := 1
      table := Function.update cfgA2.table "user1" (some 0)
      dLock := false, dpc := .idle }

def cfgA4 : Config :=
  { cfgA3 with
      workers := Function.update cfgA3.workers 0 ⟨"user1", .seedGot rA, [], false, 0, 0⟩ }

def cfgA5 : Config :=
  { cfgA4 with
      sinkLog := [⟨rA, .delayer 0, 0⟩]
      workers := Function.update cfgA4.workers 0 ⟨"user1", .seedAfter, [], false, 0, 0⟩ }

def cfgA6 : Config :=
  { cfgA5 with
      workers := Function.update cfgA5.workers 0 ⟨"user1", .loop 100, [], false, 0, 0⟩ }

def cfgA7 : Config :=
  { cfgA6 with input := [], reads := [rA, rB], dpc := .locking rB }

def cfgA8 : Config := { cfgA7 with dpc := .cs rB, dLock := true }

def cfgA9 : Config :=
  { cfgA8 with
      workers := Function.update cfgA8.workers 0 ⟨"user1", .loop 100, [rB], false, 0, 0⟩
      dLock := false, dpc := .idle }

def cfgA10 : Config :=
  { cfgA9 with
      workers := Function.update cfgA9.workers 0 ⟨"user1", .got rB, [], false, 0, 0⟩ }

def cfgA11 : Config :=
  { cfgA10 with
      sinkLog := [⟨rA, .delayer 0, 0⟩, ⟨rB, .delayer 0, 0⟩]
      workers := Function.update cfgA10.workers 0 ⟨"user1", .after rB, [], false, 0, 0⟩ }

/-- State `cfgA6` after the idle window has passed with no traffic, and after the
worker has consumed the timer fire. -/
def cfgA6t : Config := { cfgA6 with now := 100 }

def cfgFiring : Config :=
  { cfgA6t with
      workers := Function.update cfgA6t.workers 0 ⟨"user1", .firing, [], false, 0, 0⟩ }

/-- State `cfgFiring` after the worker's shutdown critical section. -/
def cfgDone : Config :=
  { cfgFiring with
      table := Function.update cfgFiring.table "user1" none
      workers := Function.update cfgFiring.workers 0 ⟨"user1", .done, [], true, 0, 0⟩ }

/-- A second concrete run: a single plain request is executed directly by
the dispatcher. -/
def plainInp : List Request := [rB]

def cfgB1 : Config :=
  { startCfg plainInp with input := [], reads := [rB], dpc := .locking rB }

def cfgB2 : Config := { cfgB1 with dpc := .cs rB, dLock := true }

def cfgB3 : Config := { cfgB2 with dLock := false, dpc := .sink rB }

def cfgB4 : Config :=
  { cfgB3 with sinkLog := [⟨rB, .main, 0⟩], dpc := .idle }

/-- Scratch states for exercising the amended C8: a worker that has just
sunk the delay-flagged `rA` from its loop, then sleeps, then wakes. -/
def cfgC1 : Config :=
  { cfgA11 with
      workers := Function.update cfgA11.workers 0 ⟨"user1", .after rA, [], false, 0, 0⟩ }

def cfgC2 : Config :=
  { cfgC1 with
      workers := Function.update cfgC1.workers 0 ⟨"user1", .sleeping 100, [], false, 0, 0⟩ }

def cfgC3 : Config := { cfgC2 with now := 100 }

def cfgC4 : Config :=
  { cfgC3 with
      workers := Function.update cfgC3.workers 0 ⟨"user1", .loop 200, [], false, 0, 0⟩ }

/-- Go, `init` (lines 129-142): one transition of the monitor goroutine on
receiving `id`: `if nextId != id` it panics (`none`), else `nextId = id+1`. -/
def monitorStep : Option Int → Int → Option Int
  | none, _ => none
  | some nextId, i => if nextId = i then some (i + 1) else none

/-- The monitor's state (`some nextId`, or `none` for the abort) after
consuming a whole id stream, starting from `nextId = 0`. -/
def monitorRun (ids : List Int) : Option Int := ids.foldl monitorStep (some 0)

/-- The id stream the monitor consumes: the `id` of every `callService`
invocation from both paths, in `checkCh` send order. -/
def monitorInput (c : Config) : List Int := c.sinkLog.map (fun e => e.req.id)

/-- The inductive invariant of the system.  Every clause is preserved by
every step (`inv_step`) and holds initially (`inv_start`). -/
structure Inv (c : Config) : Prop where
  /-- a routing entry points to a live worker of that key whose channel is
      open — `activeDelayers[k]` is installed at spawn and removed exactly
      when the worker closes its channel. -/
  tblValid : ∀ k wid, c.table k = some wid →
    wid < c.nworkers ∧ (c.workers wid).uid = k ∧
      (c.workers wid).closed = false ∧ (c.workers wid).pc ≠ .done
  /-- a live worker owns the routing entry of its key. -/
  activeEntry : ∀ wid, wid < c.nworkers → (c.workers wid).pc ≠ .done →
    c.table (c.workers wid).uid = some wid
  /-- the dead `!ok` seed branch is never entered. -/
  noSeedCl : ∀ wid, wid < c.nworkers → (c.workers wid).pc ≠ .seedCl
  /-- no runtime panic from channel misuse has occurred. -/
  notCrashed : c.crashed = false
  /-- a worker's queue only holds requests of its own key. -/
  bufUid : ∀ wid, wid < c.nworkers → ∀ r, r ∈ (c.workers wid).buf →
    r.UID = (c.workers wid).uid
  /-- a worker only holds requests of its own key. -/
  heldUid : ∀ wid, wid < c.nworkers → ∀ r,
    ((c.workers wid).pc = .seedGot r ∨ (c.workers wid).pc = .got r) →
    r.UID = (c.workers wid).uid
  /-- on the direct-execution path there is no routing entry for the key. -/
  dSinkFree : ∀ r, c.dpc = .sink r → c.table r.UID = none
  /-- per-key conservation and order: the reads for `k` are exactly the
      sink calls for `k` followed by the in-flight requests for `k`. -/
  order : ∀ k, readsFor c k = sinkFor c k ++ heldFor c k ++ bufFor c k ++ dispFor c k
  /-- ghost timestamps never exceed the clock. -/
  ghostNow : ∀ wid, wid < c.nworkers →
    (c.workers wid).lastSink ≤ c.now ∧ (c.workers wid).lastEnq ≤ c.now
  /-- an armed idle timer expires no earlier than a full window after the
      worker's most recent sink call. -/
  loopArm : ∀ wid d, wid < c.nworkers → (c.workers wid).pc = .loop d →
    (c.workers wid).lastSink + delay ≤ d
  /-- a consumed timer fire implies a full silent window has elapsed. -/
  fireNow : ∀ wid, wid < c.nworkers → (c.workers wid).pc = .firing →
    (c.workers wid).lastSink + delay ≤ c.now
  /-- an empty queue means the worker either holds the dequeued request or
      has already sunk everything that was ever enqueued. -/
  quiet : ∀ wid, wid < c.nworkers → (c.workers wid).buf = [] →
    heldOf (c.workers wid) ≠ [] ∨ (c.workers wid).lastEnq ≤ (c.workers wid).lastSink
  /-- a worker that has not yet received its seed has a nonempty queue. -/
  seedBuf : ∀ wid, wid < c.nworkers → (c.workers wid).pc = .seed0 →
    (c.workers wid).buf ≠ []

theorem inv_start (inp : List Request) : Inv (startCfg inp) := by
  constructor <;>
    simp [startCfg, readsFor, sinkFor, heldFor, bufFor, dispFor]

theorem updW (f : Nat → Worker) (i : Nat) (w : Worker) (j : Nat) :
    Function.update f i w j = if j = i then w else f j := by
  by_cases h : j = i <;> simp [Function.update, h]

theorem filter_append_one {α : Type} (p : α → Bool) (l : List α) (a : α) :
    (l ++ [a]).filter p = l.filter p ++ (if p a then [a] else []) := by
  rw [List.filter_append]
  cases hpa : p a <;> simp [List.filter, hpa]

theorem heldFor_congr {c c' : Config} (k : String)
    (ht : c'.table k = c.table k)
    (hw : ∀ wid, c.table k = some wid →
      heldOf (c'.workers wid) = heldOf (c.workers wid)) :
    heldFor c' k = heldFor c k := by
  unfold heldFor
  rw [ht]
  cases h : c.table k with
  | none => rfl
  | some wid => exact hw wid h

theorem bufFor_congr {c c' : Config} (k : String)
    (ht : c'.table k = c.table k)
    (hw : ∀ wid, c.table k = some wid →
      (c'.workers wid).buf = (c.workers wid).buf) :
    bufFor c' k = bufFor c k := by
  unfold bufFor
  rw [ht]
  cases h : c.table k with
  | none => rfl
  | some wid => exact hw wid h

theorem mapFilter_snoc (log : List SinkEv) (ev : SinkEv) (k : String) :
    ((log ++ [ev]).filter (fun e => e.req.UID == k)).map SinkEv.req
    = (log.filter (fun e => e.req.UID == k)).map SinkEv.req
      ++ (if ev.req.UID == k then [ev.req] else []) := by
  rw [filter_append_one, List.map_append]
  by_cases h : ev.req.UID == k <;> simp [h]

/-- Preservation helper: a step that only moves one worker's program
counter (leaving its key, queue, close flag and ghost clocks unchanged,
and not changing whether it holds a dequeued request) preserves `Inv`,
given the pc-specific clauses for the new pc. -/
theorem inv_pcOnly (c : Config) (wid : Nat) (w' : Worker)
    (hwlt : wid < c.nworkers) (hc : Inv c)
    (huid : w'.uid = (c.workers wid).uid)
    (hbuf : w'.buf = (c.workers wid).buf)
    (hcl : w'.closed = (c.workers wid).closed)
    (hle : w'.lastEnq = (c.workers wid).lastEnq)
    (hls : w'.lastSink = (c.workers wid).lastSink)
    (hheld : heldOf w' = heldOf (c.workers wid))
    (hndOld : (c.workers wid).pc ≠ .done)
    (hnd : w'.pc ≠ .done) (hncl : w'.pc ≠ .seedCl)
    (hheldU : ∀ r, (w'.pc = .seedGot r ∨ w'.pc = .got r) → r.UID = w'.uid)
    (hloop' : ∀ d, w'.pc = .loop d → w'.lastSink + delay ≤ d)
    (hfire' : w'.pc = .firing → w'.lastSink + delay ≤ c.now)
    (hseed' : w'.pc = .seed0 → w'.buf ≠ []) :
    Inv { c with workers := Function.update c.workers wid w' } := by
  obtain ⟨hTbl, hAct, hNoCl, hCr, hBufU, hHeldU, hDSink, hOrd, hGhost,
    hLoop, hFire, hQuiet, hSeed⟩ := hc
  have hh : ∀ k, heldFor { c with workers := Function.update c.workers wid w' } k
      = heldFor c k := by
    intro k
    refine heldFor_congr k rfl ?_
    intro wid' h
    dsimp only
    rcases eq_or_ne wid' wid with e | e
    · subst e; rw [Function.update_same]; exact hheld
    · rw [Function.update_noteq e]
  have hb : ∀ k, bufFor { c with workers := Function.update c.workers wid w' } k
      = bufFor c k := by
    intro k
    refine bufFor_congr k rfl ?_
    intro wid' h
    dsimp only
    rcases eq_or_ne wid' wid with e | e
    · subst e; rw [Function.update_same]; exact hbuf
    · rw [Function.update_noteq e]
  refine ⟨?_, ?_, ?_, hCr, ?_, ?_, ?_, ?_, ?_, ?_, ?_, ?_, ?_⟩ <;> dsimp only
  · intro k wid' h
    obtain ⟨h1, h2, h3, h4⟩ := hTbl k wid' h
    rcases eq_or_ne wid' wid with e | e
    · subst e
      rw [Function.update_same]
      exact ⟨h1, huid.trans h2, hcl.trans h3, hnd⟩
    · rw [Function.update_noteq e]
      exact ⟨h1, h2, h3, h4⟩
  · intro wid' hlt hnd'
    rcases eq_or_ne wid' wid with e | e
    · subst e
      rw [Function.update_same] at hnd' ⊢
      rw [huid]
      exact hAct wid' hwlt hndOld
    · rw [Function.update_noteq e] at hnd' ⊢
      exact hAct wid' hlt hnd'
  · intro wid' hlt
    rcases eq_or_ne wid' wid with e | e
    · subst e; rw [Function.update_same]; exact hncl
    · rw [Function.update_noteq e]; exact hNoCl wid' hlt
  · intro wid' hlt r hr
    rcases eq_or_ne wid' wid with e | e
    · subst e
      rw [Function.update_same] at hr ⊢
      rw [hbuf] at hr
      rw [huid]
      exact hBufU wid' hwlt r hr
    · rw [Function.update_noteq e] at hr ⊢
      exact hBufU wid' hlt r hr
  · intro wid' hlt r hr
    rcases eq_or_ne wid' wid with e | e
    · subst e
      rw [Function.update_same] at hr ⊢
      exact hheldU r hr
    · rw [Function.update_noteq e] at hr ⊢
      exact hHeldU wid' hlt r hr
  · intro r h
    exact hDSink r h
  · intro k
    rw [hh k, hb k]
    exact hOrd k
  · intro wid' hlt
    rcases eq_or_ne wid' wid with e | e
    · subst e; rw [Function.update_same, hls, hle]; exact hGhost wid' hwlt
    · rw [Function.update_noteq e]; exact hGhost wid' hlt
  · intro wid' d hlt hpc'
    rcases eq_or_ne wid' wid with e | e
    · subst e
      rw [Function.update_same] at hpc' ⊢
      exact hloop' d hpc'
    · rw [Function.update_noteq e] at hpc' ⊢
      exact hLoop wid' d hlt hpc'
  · intro wid' hlt hpc'
    rcases eq_or_ne wid' wid with e | e
    · subst e
      rw [Function.update_same] at hpc' ⊢
      exact hfire' hpc'
    · rw [Function.update_noteq e] at hpc' ⊢
      exact hFire wid' hlt hpc'
  · intro wid' hlt hb'
    rcases eq_or_ne wid' wid with e | e
    · subst e
      rw [Function.update_same] at hb' ⊢
      rw [hbuf] at hb'
      rw [hheld, hle, hls]
      exact hQuiet wid' hwlt hb'
    · rw [Function.update_noteq e] at hb' ⊢
      exact hQuiet wid' hlt hb'
  · intro wid' hlt hpc'
    rcases eq_or_ne wid' wid with e | e
    · subst e
      rw [Function.update_same] at hpc' ⊢
      exact hseed' hpc'
    · rw [Function.update_noteq e] at hpc' ⊢
      exact hSeed wid' hlt hpc'

/-- Preservation helper: a worker dequeues the head of its queue
(`<-ch` succeeding), moving it from the queue into its hands. -/
theorem inv_dequeue (c : Config) (wid : Nat) (r : Request) (brest : List Request)
    (w' : Worker) (hw : wid < c.nworkers) (hc : Inv c)
    (huid : w'.uid = (c.workers wid).uid)
    (hbuf' : w'.buf = brest)
    (hcl : w'.closed = (c.workers wid).closed)
    (hle : w'.lastEnq = (c.workers wid).lastEnq)
    (hls : w'.lastSink = (c.workers wid).lastSink)
    (hb : (c.workers wid).buf = r :: brest)
    (hheldOld : heldOf (c.workers wid) = [])
    (hheldNew : heldOf w' = [r])
    (hndOld : (c.workers wid).pc ≠ .done)
    (hnd : w'.pc ≠ .done) (hncl : w'.pc ≠ .seedCl) (hns : w'.pc ≠ .seed0)
    (hheldU : ∀ r', (w'.pc = .seedGot r' ∨ w'.pc = .got r') → r' = r)
    (hloop' : ∀ d, w'.pc ≠ .loop d) (hfire' : w'.pc ≠ .firing) :
    Inv { c with workers := Function.update c.workers wid w' } := by
  obtain ⟨hTbl, hAct, hNoCl, hCr, hBufU, hHeldU, hDSink, hOrd, hGhost,
    hLoop, hFire, hQuiet, hSeed⟩ := hc
  have hmemr : r ∈ (c.workers wid).buf := by
    rw [hb]; exact List.mem_cons_self r brest
  refine ⟨?_, ?_, ?_, hCr, ?_, ?_, ?_, ?_, ?_, ?_, ?_, ?_, ?_⟩ <;> dsimp only
  · intro k wid' h
    obtain ⟨h1, h2, h3, h4⟩ := hTbl k wid' h
    rcases eq_or_ne wid' wid with e | e
    · subst e
      rw [Function.update_same]
      exact ⟨h1, huid.trans h2, hcl.trans h3, hnd⟩
    · rw [Function.update_noteq e]
      exact ⟨h1, h2, h3, h4⟩
  · intro wid' hlt hnd'
    rcases eq_or_ne wid' wid with e | e
    · subst e
      rw [Function.update_same, huid]
      exact hAct wid' hw hndOld
    · rw [Function.update_noteq e] at hnd' ⊢
      exact hAct wid' hlt hnd'
  · intro wid' hlt
    rcases eq_or_ne wid' wid with e | e
    · subst e; rw [Function.update_same]; exact hncl
    · rw [Function.update_noteq e]; exact hNoCl wid' hlt
  · intro wid' hlt r' hr
    rcases eq_or_ne wid' wid with e | e
    · subst e
      rw [Function.update_same] at hr ⊢
      rw [hbuf'] at hr
      rw [huid]
      refine hBufU wid' hw r' ?_
      rw [hb]
      exact List.mem_cons_of_mem r hr
    · rw [Function.update_noteq e] at hr ⊢
      exact hBufU wid' hlt r' hr
  · intro wid' hlt r' hr
    rcases eq_or_ne wid' wid with e | e
    · subst e
      rw [Function.update_same] at hr ⊢
      have := hheldU r' hr
      subst this
      rw [huid]
      exact hBufU wid' hw r' hmemr
    · rw [Function.update_noteq e] at hr ⊢
      exact hHeldU wid' hlt r' hr
  · intro r' h
    exact hDSink r' h
  · intro k
    have h0 := hOrd k
    simp only [readsFor, sinkFor, heldFor, bufFor, dispFor] at h0 ⊢
    cases hct : c.table k with
    | none =>
        simp only [hct] at h0 ⊢
        exact h0
    | some wid2 =>
        rcases eq_or_ne wid2 wid with e | e
        · subst e
          simp only [hct, Function.update_same, hheldOld, hheldNew, hbuf', hb,
            List.nil_append, List.append_nil] at h0 ⊢
          rw [h0, List.append_cons]
        · simp only [hct, Function.update_noteq e] at h0 ⊢
          exact h0
  · intro wid' hlt
    rcases eq_or_ne wid' wid with e | e
    · subst e; rw [Function.update_same, hls, hle]; exact hGhost wid' hw
    · rw [Function.update_noteq e]; exact hGhost wid' hlt
  · intro wid' d hlt hpc'
    rcases eq_or_ne wid' wid with e | e
    · subst e
      rw [Function.update_same] at hpc'
      exact absurd hpc' (hloop' d)
    · rw [Function.update_noteq e] at hpc' ⊢
      exact hLoop wid' d hlt hpc'
  · intro wid' hlt hpc'
    rcases eq_or_ne wid' wid with e | e
    · subst e
      rw [Function.update_same] at hpc'
      exact absurd hpc' hfire'
    · rw [Function.update_noteq e] at hpc' ⊢
      exact hFire wid' hlt hpc'
  · intro wid' hlt hb2
    rcases eq_or_ne wid' wid with e | e
    · subst e
      rw [Function.update_same] at hb2 ⊢
      left
      rw [hheldNew]
      simp
    · rw [Function.update_noteq e] at hb2 ⊢
      exact hQuiet wid' hlt hb2
  · intro wid' hlt hpc'
    rcases eq_or_ne wid' wid with e | e
    · subst e
      rw [Function.update_same] at hpc'
      exact absurd hpc' hns
    · rw [Function.update_noteq e] at hpc' ⊢
      exact hSeed wid' hlt hpc'

/-- Preservation helper: a worker runs `callService(r)` for the request it
holds, appending to the sink log and stamping `lastSink`. -/
theorem inv_sinkStep (c : Config) (wid : Nat) (r : Request) (w' : Worker)
    (hw : wid < c.nworkers) (hc : Inv c)
    (huid : w'.uid = (c.workers wid).uid)
    (hbuf : w'.buf = (c.workers wid).buf)
    (hcl : w'.closed = (c.workers wid).closed)
    (hle : w'.lastEnq = (c.workers wid).lastEnq)
    (hlsNew : w'.lastSink = c.now)
    (hpcOld : (c.workers wid).pc = .seedGot r ∨ (c.workers wid).pc = .got r)
    (hheldNew : heldOf w' = [])
    (hnd : w'.pc ≠ .done) (hncl : w'.pc ≠ .seedCl) (hns : w'.pc ≠ .seed0)
    (hheldU' : ∀ r', ¬(w'.pc = .seedGot r' ∨ w'.pc = .got r'))
    (hloop' : ∀ d, w'.pc ≠ .loop d) (hfire' : w'.pc ≠ .firing) :
    Inv { c with
          sinkLog := c.sinkLog ++ [⟨r, .delayer wid, c.now⟩]
          workers := Function.update c.workers wid w' } := by
  obtain ⟨hTbl, hAct, hNoCl, hCr, hBufU, hHeldU, hDSink, hOrd, hGhost,
    hLoop, hFire, hQuiet, hSeed⟩ := hc
  have hndOld : (c.workers wid).pc ≠ .done := by
    rcases hpcOld with h | h <;> simp [h]
  have hheldOld : heldOf (c.workers wid) = [r] := by
    rcases hpcOld with h | h <;> simp [heldOf, h]
  have hru : r.UID = (c.workers wid).uid := hHeldU wid hw r hpcOld
  have htbl : c.table (c.workers wid).uid = some wid := hAct wid hw hndOld
  refine ⟨?_, ?_, ?_, hCr, ?_, ?_, ?_, ?_, ?_, ?_, ?_, ?_, ?_⟩ <;> dsimp only
  · intro k wid' h
    obtain ⟨h1, h2, h3, h4⟩ := hTbl k wid' h
    rcases eq_or_ne wid' wid with e | e
    · subst e
      rw [Function.update_same]
      exact ⟨h1, huid.trans h2, hcl.trans h3, hnd⟩
    · rw [Function.update_noteq e]
      exact ⟨h1, h2, h3, h4⟩
  · intro wid' hlt hnd'
    rcases eq_or_ne wid' wid with e | e
    · subst e
      rw [Function.update_same, huid]
      exact htbl
    · rw [Function.update_noteq e] at hnd' ⊢
      exact hAct wid' hlt hnd'
  · intro wid' hlt
    rcases eq_or_ne wid' wid with e | e
    · subst e; rw [Function.update_same]; exact hncl
    · rw [Function.update_noteq e]; exact hNoCl wid' hlt
  · intro wid' hlt r' hr
    rcases eq_or_ne wid' wid with e | e
    · subst e
      rw [Function.update_same] at hr ⊢
      rw [hbuf] at hr
      rw [huid]
      exact hBufU wid' hw r' hr
    · rw [Function.update_noteq e] at hr ⊢
      exact hBufU wid' hlt r' hr
  · intro wid' hlt r' hr
    rcases eq_or_ne wid' wid with e | e
    · subst e
      rw [Function.update_same] at hr
      exact absurd hr (hheldU' r')
    · rw [Function.update_noteq e] at hr ⊢
      exact hHeldU wid' hlt r' hr
  · intro r' h
    exact hDSink r' h
  · intro k
    have h0 := hOrd k
    by_cases hk : r.UID = k
    · have hkuid : k = (c.workers wid).uid := hk ▸ hru
      subst hkuid
      simp only [readsFor, sinkFor, heldFor, bufFor, dispFor, htbl,
        Function.update_same, hheldOld, hheldNew, hbuf,
        List.nil_append, List.append_nil] at h0 ⊢
      rw [mapFilter_snoc]
      simp only [hk, beq_self_eq_true, if_true, List.append_nil]
      rw [h0]
    · simp only [readsFor, sinkFor, heldFor, bufFor, dispFor, beq_iff_eq] at h0 ⊢
      rw [mapFilter_snoc]
      simp only [beq_iff_eq, hk, if_false, List.append_nil]
      cases hct : c.table k with
      | none =>
          simp only [hct] at h0 ⊢
          exact h0
      | some wid2 =>
          have hne : wid2 ≠ wid := by
            intro e
            subst e
            have h2 := (hTbl k wid2 hct).2.1
            exact hk (hru.trans h2)
          simp only [hct, Function.update_noteq hne] at h0 ⊢
          exact h0
  · intro wid' hlt
    rcases eq_or_ne wid' wid with e | e
    · subst e
      rw [Function.update_same, hlsNew, hle]
      exact ⟨le_refl _, (hGhost wid' hw).2⟩
    · rw [Function.update_noteq e]
      exact hGhost wid' hlt
  · intro wid' d hlt hpc'
    rcases eq_or_ne wid' wid with e | e
    · subst e
      rw [Function.update_same] at hpc'
      exact absurd hpc' (hloop' d)
    · rw [Function.update_noteq e] at hpc' ⊢
      exact hLoop wid' d hlt hpc'
  · intro wid' hlt hpc'
    rcases eq_or_ne wid' wid with e | e
    · subst e
      rw [Function.update_same] at hpc'
      exact absurd hpc' hfire'
    · rw [Function.update_noteq e] at hpc' ⊢
      exact hFire wid' hlt hpc'
  · intro wid' hlt hb2
    rcases eq_or_ne wid' wid with e | e
    · subst e
      rw [Function.update_same] at hb2 ⊢
      right
      rw [hle, hlsNew]
      exact (hGhost wid' hw).2
    · rw [Function.update_noteq e] at hb2 ⊢
      exact hQuiet wid' hlt hb2
  · intro wid' hlt hpc'
    rcases eq_or_ne wid' wid with e | e
    · subst e
      rw [Function.update_same] at hpc'
      exact absurd hpc' hns
    · rw [Function.update_noteq e] at hpc' ⊢
      exact hSeed wid' hlt hpc'

theorem inv_step {c : Config} {l : Label} {c' : Config}
    (hc : Inv c) (hs : Step c l c') : Inv c' := by
  obtain ⟨hTbl, hAct, hNoCl, hCr, hBufU, hHeldU, hDSink, hOrd, hGhost,
    hLoop, hFire, hQuiet, hSeed⟩ := id hc
  cases hs with
  | dRead r rest hpc hin =>
      refine ⟨hTbl, hAct, hNoCl, hCr, hBufU, hHeldU, ?_, ?_, hGhost,
        hLoop, hFire, hQuiet, hSeed⟩
      · intro r' h
        simp at h
      · intro k
        have h0 := hOrd k
        simp only [readsFor, sinkFor, heldFor, bufFor, dispFor, hpc,
          List.append_nil] at h0 ⊢
        rw [filter_append_one, h0]
  | dEnd hpc hin =>
      refine ⟨hTbl, hAct, hNoCl, hCr, hBufU, hHeldU, ?_, ?_, hGhost,
        hLoop, hFire, hQuiet, hSeed⟩
      · intro r' h
        simp at h
      · intro k
        have h0 := hOrd k
        simp only [readsFor, sinkFor, heldFor, bufFor, dispFor, hpc,
          List.append_nil] at h0 ⊢
        exact h0
  | dLock r hpc hl =>
      refine ⟨hTbl, hAct, hNoCl, hCr, hBufU, hHeldU, ?_, ?_, hGhost,
        hLoop, hFire, hQuiet, hSeed⟩
      · intro r' h
        simp at h
      · intro k
        have h0 := hOrd k
        simp only [readsFor, sinkFor, heldFor, bufFor, dispFor, hpc,
          List.append_nil] at h0 ⊢
        exact h0
  | dRoute r wid hpc ht hcl hcap =>
      obtain ⟨hwlt, huid, hclosed, hnd⟩ := hTbl _ wid ht
      refine ⟨?_, ?_, ?_, hCr, ?_, ?_, ?_, ?_, ?_, ?_, ?_, ?_, ?_⟩ <;> dsimp only
      · intro k wid' h
        obtain ⟨h1, h2, h3, h4⟩ := hTbl k wid' h
        rcases eq_or_ne wid' wid with e | e
        · subst e
          rw [Function.update_same]
          exact ⟨h1, h2, h3, h4⟩
        · rw [Function.update_noteq e]
          exact ⟨h1, h2, h3, h4⟩
      · intro wid' hlt hnd'
        rcases eq_or_ne wid' wid with e | e
        · subst e
          rw [Function.update_same]
          exact hAct wid' hwlt hnd
        · rw [Function.update_noteq e] at hnd' ⊢
          exact hAct wid' hlt hnd'
      · intro wid' hlt
        rcases eq_or_ne wid' wid with e | e
        · subst e
          rw [Function.update_same]
          exact hNoCl wid' hwlt
        · rw [Function.update_noteq e]
          exact hNoCl wid' hlt
      · intro wid' hlt r' hr
        rcases eq_or_ne wid' wid with e | e
        · subst e
          rw [Function.update_same] at hr ⊢
          dsimp only at hr ⊢
          rcases List.mem_append.mp hr with h | h
          · exact hBufU wid' hwlt r' h
          · rw [List.mem_singleton] at h
            subst h
            exact huid.symm
        · rw [Function.update_noteq e] at hr ⊢
          exact hBufU wid' hlt r' hr
      · intro wid' hlt r' hr
        rcases eq_or_ne wid' wid with e | e
        · subst e
          rw [Function.update_same] at hr ⊢
          exact hHeldU wid' hwlt r' hr
        · rw [Function.update_noteq e] at hr ⊢
          exact hHeldU wid' hlt r' hr
      · intro r' h
        simp at h
      · intro k
        have h0 := hOrd k
        by_cases hk : r.UID = k
        · subst hk
          simp only [readsFor, sinkFor, heldFor, bufFor, dispFor, heldOf, hpc, ht,
            List.append_nil, beq_self_eq_true, if_true,
            Function.update_same] at h0 ⊢
          simp [h0, List.append_assoc]
        · simp only [readsFor, sinkFor, heldFor, bufFor, dispFor, hpc,
            List.append_nil, beq_iff_eq, hk, if_false] at h0 ⊢
          cases hct : c.table k with
          | none =>
              simp only [hct] at h0 ⊢
              exact h0
          | some wid2 =>
              have hne : wid2 ≠ wid := by
                intro e
                apply hk
                have h2 := (hTbl k wid2 hct).2.1
                rw [e] at h2
                exact huid.symm.trans h2
              simp only [hct, Function.update_noteq hne] at h0 ⊢
              exact h0
      · intro wid' hlt
        rcases eq_or_ne wid' wid with e | e
        · subst e
          rw [Function.update_same]
          dsimp only
          exact ⟨(hGhost wid' hwlt).1, le_refl _⟩
        · rw [Function.update_noteq e]
          exact hGhost wid' hlt
      · intro wid' d hlt hpc'
        rcases eq_or_ne wid' wid with e | e
        · subst e
          rw [Function.update_same] at hpc' ⊢
          exact hLoop wid' d hwlt hpc'
        · rw [Function.update_noteq e] at hpc' ⊢
          exact hLoop wid' d hlt hpc'
      · intro wid' hlt hpc'
        rcases eq_or_ne wid' wid with e | e
        · subst e
          rw [Function.update_same] at hpc' ⊢
          exact hFire wid' hwlt hpc'
        · rw [Function.update_noteq e] at hpc' ⊢
          exact hFire wid' hlt hpc'
      · intro wid' hlt hb'
        rcases eq_or_ne wid' wid with e | e
        · subst e
          rw [Function.update_same] at hb' ⊢
          dsimp only at hb'
          exact absurd hb' (List.append_ne_nil_of_right_ne_nil _ (by simp))
        · rw [Function.update_noteq e] at hb' ⊢
          exact hQuiet wid' hlt hb'
      · intro wid' hlt hpc'
        rcases eq_or_ne wid' wid with e | e
        · subst e
          rw [Function.update_same] at hpc' ⊢
          dsimp only at hpc' ⊢
          intro h
          exact absurd h (List.append_ne_nil_of_right_ne_nil _ (by simp))
        · rw [Function.update_noteq e] at hpc' ⊢
          exact hSeed wid' hlt hpc'
  | dRouteClosed r wid hpc ht hcl =>
      have h2 := (hTbl _ wid ht).2.2.1
      rw [hcl] at h2
      simp at h2
  | dSpawn r hpc ht hd =>
      refine ⟨?_, ?_, ?_, hCr, ?_, ?_, ?_, ?_, ?_, ?_, ?_, ?_, ?_⟩ <;> dsimp only
      · intro k wid' h
        by_cases ek : k = r.UID
        · subst ek
          rw [Function.update_same] at h
          injection h with h
          subst h
          rw [Function.update_same]
          exact ⟨Nat.lt_succ_self _, rfl, rfl, by simp⟩
        · rw [Function.update_noteq ek] at h
          obtain ⟨h1, h2, h3, h4⟩ := hTbl k wid' h
          rw [Function.update_noteq (Nat.ne_of_lt h1)]
          exact ⟨Nat.lt_succ_of_lt h1, h2, h3, h4⟩
      · intro wid' hlt hnd'
        rcases Nat.lt_succ_iff_lt_or_eq.mp hlt with h | h
        · rw [Function.update_noteq (Nat.ne_of_lt h)] at hnd' ⊢
          have hone := hAct wid' h hnd'
          have hne : (c.workers wid').uid ≠ r.UID := by
            intro e
            rw [e] at hone
            rw [hone] at ht
            exact Option.noConfusion ht
          rw [Function.update_noteq hne]
          exact hone
        · subst h
          rw [Function.update_same]
          dsimp only
          rw [Function.update_same]
      · intro wid' hlt
        rcases Nat.lt_succ_iff_lt_or_eq.mp hlt with h | h
        · rw [Function.update_noteq (Nat.ne_of_lt h)]
          exact hNoCl wid' h
        · subst h
          rw [Function.update_same]
          simp
      · intro wid' hlt r' hr
        rcases Nat.lt_succ_iff_lt_or_eq.mp hlt with h | h
        · rw [Function.update_noteq (Nat.ne_of_lt h)] at hr ⊢
          exact hBufU wid' h r' hr
        · subst h
          rw [Function.update_same] at hr ⊢
          dsimp only at hr ⊢
          rw [List.mem_singleton] at hr
          subst hr
          rfl
      · intro wid' hlt r' hr
        rcases Nat.lt_succ_iff_lt_or_eq.mp hlt with h | h
        · rw [Function.update_noteq (Nat.ne_of_lt h)] at hr ⊢
          exact hHeldU wid' h r' hr
        · subst h
          rw [Function.update_same] at hr ⊢
          dsimp only at hr
          rcases hr with h | h <;> exact WPc.noConfusion h
      · intro r' h
        simp at h
      · intro k
        have h0 := hOrd k
        by_cases hk : r.UID = k
        · subst hk
          simp only [readsFor, sinkFor, heldFor, bufFor, dispFor, heldOf, hpc, ht,
            List.append_nil, beq_self_eq_true, if_true,
            Function.update_same] at h0 ⊢
          simp [h0]
        · have hk2 : k ≠ r.UID := fun e => hk e.symm
          simp only [readsFor, sinkFor, heldFor, bufFor, dispFor, hpc,
            List.append_nil, beq_iff_eq, hk, if_false,
            Function.update_noteq hk2] at h0 ⊢
          cases hct : c.table k with
          | none =>
              simp only [hct] at h0 ⊢
              exact h0
          | some wid2 =>
              have h1 := (hTbl k wid2 hct).1
              simp only [hct, Function.update_noteq (Nat.ne_of_lt h1)] at h0 ⊢
              exact h0
      · intro wid' hlt
        rcases Nat.lt_succ_iff_lt_or_eq.mp hlt with h | h
        · rw [Function.update_noteq (Nat.ne_of_lt h)]
          exact hGhost wid' h
        · subst h
          rw [Function.update_same]
          exact ⟨Nat.zero_le _, le_refl _⟩
      · intro wid' d hlt hpc'
        rcases Nat.lt_succ_iff_lt_or_eq.mp hlt with h | h
        · rw [Function.update_noteq (Nat.ne_of_lt h)] at hpc' ⊢
          exact hLoop wid' d h hpc'
        · subst h
          rw [Function.update_same] at hpc'
          exact WPc.noConfusion hpc'
      · intro wid' hlt hpc'
        rcases Nat.lt_succ_iff_lt_or_eq.mp hlt with h | h
        · rw [Function.update_noteq (Nat.ne_of_lt h)] at hpc' ⊢
          exact hFire wid' h hpc'
        · subst h
          rw [Function.update_same] at hpc'
          exact WPc.noConfusion hpc'
      · intro wid' hlt hb'
        rcases Nat.lt_succ_iff_lt_or_eq.mp hlt with h | h
        · rw [Function.update_noteq (Nat.ne_of_lt h)] at hb' ⊢
          exact hQuiet wid' h hb'
        · subst h
          rw [Function.update_same] at hb'
          exact List.noConfusion hb'
      · intro wid' hlt hpc'
        rcases Nat.lt_succ_iff_lt_or_eq.mp hlt with h | h
        · rw [Function.update_noteq (Nat.ne_of_lt h)] at hpc' ⊢
          exact hSeed wid' h hpc'
        · subst h
          rw [Function.update_same]
          simp
  | dDirect r hpc ht hd =>
      refine ⟨hTbl, hAct, hNoCl, hCr, hBufU, hHeldU, ?_, ?_, hGhost,
        hLoop, hFire, hQuiet, hSeed⟩
      · intro r' h
        dsimp only at h
        injection h with h
        subst h
        exact ht
      · intro k
        have h0 := hOrd k
        simp only [readsFor, sinkFor, heldFor, bufFor, dispFor, hpc,
          List.append_nil] at h0 ⊢
        exact h0
  | dSink r hpc =>
      refine ⟨hTbl, hAct, hNoCl, hCr, hBufU, hHeldU, ?_, ?_, hGhost,
        hLoop, hFire, hQuiet, hSeed⟩
      · intro r' h
        simp at h
      · intro k
        have h0 := hOrd k
        have hnone : c.table r.UID = none := hDSink r hpc
        by_cases hk : r.UID = k
        · subst hk
          simp only [readsFor, sinkFor, heldFor, bufFor, dispFor, hpc, hnone,
            List.append_nil, beq_self_eq_true, if_true] at h0 ⊢
          rw [mapFilter_snoc]
          simp [h0]
        · simp only [readsFor, sinkFor, heldFor, bufFor, dispFor, hpc,
            List.append_nil, beq_iff_eq, hk, if_false] at h0 ⊢
          rw [mapFilter_snoc]
          simp only [beq_iff_eq, hk, if_false, List.append_nil]
          exact h0
  | wSeedRecv wid r brest hw hpc hb =>
      refine inv_dequeue c wid r brest _ hw hc rfl rfl rfl rfl rfl hb
        (by simp [heldOf, hpc]) (by simp [heldOf]) (by simp [hpc]) (by simp)
        (by simp) (by simp) ?_ (by intro d; simp) (by simp)
      intro r' hr
      dsimp only at hr
      rcases hr with h | h
      · injection h with h
        exact h.symm
      · exact WPc.noConfusion h
  | wSeedClosed wid hw hpc hb hcl =>
      exact absurd hb (hSeed wid hw hpc)
  | wSeedPanic wid hw hpc hl =>
      exact absurd hpc (hNoCl wid hw)
  | wSeedSink wid r hw hpc =>
      exact inv_sinkStep c wid r _ hw hc rfl rfl rfl rfl rfl (Or.inl hpc)
        (by simp [heldOf]) (by simp) (by simp) (by simp)
        (by intro r'; simp) (by intro d'; simp) (by simp)
  | wSeedArm wid hw hpc =>
      refine inv_pcOnly c wid _ hw hc rfl rfl rfl rfl rfl
        (by simp [heldOf, hpc]) (by simp [hpc]) (by simp) (by simp) (by simp)
        ?_ (by intro h; simp at h) (by intro h; simp at h)
      intro d h
      dsimp only at h
      injection h with h
      subst h
      exact Nat.add_le_add_right (hc.ghostNow wid hw).1 delay
  | wRecv wid d r brest hw hpc hb =>
      refine inv_dequeue c wid r brest _ hw hc rfl rfl rfl rfl rfl hb
        (by simp [heldOf, hpc]) (by simp [heldOf]) (by simp [hpc]) (by simp)
        (by simp) (by simp) ?_ (by intro d'; simp) (by simp)
      intro r' hr
      dsimp only at hr
      rcases hr with h | h
      · exact WPc.noConfusion h
      · injection h with h
        exact h.symm
  | wRecvClosed wid d hw hpc hb hcl =>
      have h1 : c.table (c.workers wid).uid = some wid :=
        hAct wid hw (by simp [hpc])
      have h2 := (hTbl _ wid h1).2.2.1
      rw [hcl] at h2
      simp at h2
  | wFire wid d hw hpc hd =>
      refine inv_pcOnly c wid _ hw hc rfl rfl rfl rfl rfl
        (by simp [heldOf, hpc]) (by simp [hpc]) (by simp) (by simp) (by simp)
        (by intro d' h; simp at h) ?_ (by intro h; simp at h)
      intro _
      exact le_trans (hc.loopArm wid d hw hpc) hd
  | wSink wid r hw hpc =>
      exact inv_sinkStep c wid r _ hw hc rfl rfl rfl rfl rfl (Or.inr hpc)
        (by simp [heldOf]) (by simp) (by simp) (by simp)
        (by intro r'; simp) (by intro d'; simp) (by simp)
  | wSleep wid r hw hpc hd =>
      exact inv_pcOnly c wid _ hw hc rfl rfl rfl rfl rfl
        (by simp [heldOf, hpc]) (by simp [hpc]) (by simp) (by simp) (by simp)
        (by intro d' h; simp at h) (by intro h; simp at h)
        (by intro h; simp at h)
  | wArm wid r hw hpc hd =>
      refine inv_pcOnly c wid _ hw hc rfl rfl rfl rfl rfl
        (by simp [heldOf, hpc]) (by simp [hpc]) (by simp) (by simp) (by simp)
        ?_ (by intro h; simp at h) (by intro h; simp at h)
      intro d' h
      dsimp only at h
      injection h with h
      subst h
      exact Nat.add_le_add_right (hc.ghostNow wid hw).1 delay
  | wWake wid t hw hpc hd =>
      refine inv_pcOnly c wid _ hw hc rfl rfl rfl rfl rfl
        (by simp [heldOf, hpc]) (by simp [hpc]) (by simp) (by simp) (by simp)
        ?_ (by intro h; simp at h) (by intro h; simp at h)
      intro d' h
      dsimp only at h
      injection h with h
      subst h
      exact Nat.add_le_add_right (hc.ghostNow wid hw).1 delay
  | wExtend wid hw hpc hl hb =>
      refine inv_pcOnly c wid _ hw hc rfl rfl rfl rfl rfl
        (by simp [heldOf, hpc]) (by simp [hpc]) (by simp) (by simp) (by simp)
        ?_ (by intro h; simp at h) (by intro h; simp at h)
      intro d' h
      dsimp only at h
      injection h with h
      subst h
      exact Nat.add_le_add_right (hc.ghostNow wid hw).1 delay
  | wShutdown wid hw hpc hl hb =>
      have hndOld : (c.workers wid).pc ≠ .done := by simp [hpc]
      have htbl : c.table (c.workers wid).uid = some wid := hAct wid hw hndOld
      refine ⟨?_, ?_, ?_, hCr, ?_, ?_, ?_, ?_, ?_, ?_, ?_, ?_, ?_⟩ <;> dsimp only
      · intro k wid' h
        by_cases ek : k = (c.workers wid).uid
        · subst ek
          rw [Function.update_same] at h
          exact Option.noConfusion h
        · rw [Function.update_noteq ek] at h
          obtain ⟨h1, h2, h3, h4⟩ := hTbl k wid' h
          have hne : wid' ≠ wid := by
            intro e
            rw [e] at h2
            exact ek h2.symm
          rw [Function.update_noteq hne]
          exact ⟨h1, h2, h3, h4⟩
      · intro wid' hlt hnd'
        rcases eq_or_ne wid' wid with e | e
        · subst e
          rw [Function.update_same] at hnd'
          simp at hnd'
        · rw [Function.update_noteq e] at hnd' ⊢
          have hone := hAct wid' hlt hnd'
          have hne : (c.workers wid').uid ≠ (c.workers wid).uid := by
            intro e2
            rw [e2] at hone
            rw [htbl] at hone
            injection hone with hone
            exact e hone.symm
          rw [Function.update_noteq hne]
          exact hone
      · intro wid' hlt
        rcases eq_or_ne wid' wid with e | e
        · subst e; rw [Function.update_same]; simp
        · rw [Function.update_noteq e]; exact hNoCl wid' hlt
      · intro wid' hlt r' hr
        rcases eq_or_ne wid' wid with e | e
        · subst e
          rw [Function.update_same] at hr ⊢
          exact hBufU wid' hw r' hr
        · rw [Function.update_noteq e] at hr ⊢
          exact hBufU wid' hlt r' hr
      · intro wid' hlt r' hr
        rcases eq_or_ne wid' wid with e | e
        · subst e
          rw [Function.update_same] at hr
          dsimp only at hr
          rcases hr with h | h <;> exact WPc.noConfusion h
        · rw [Function.update_noteq e] at hr ⊢
          exact hHeldU wid' hlt r' hr
      · intro r' h
        have hone := hDSink r' h
        by_cases er : r'.UID = (c.workers wid).uid
        · rw [er]
          rw [Function.update_same]
        · rw [Function.update_noteq er]
          exact hone
      · intro k
        have h0 := hOrd k
        by_cases hk : k = (c.workers wid).uid
        · subst hk
          simp only [readsFor, sinkFor, heldFor, bufFor, dispFor, heldOf, htbl,
            hpc, hb, Function.update_same, List.nil_append,
            List.append_nil] at h0 ⊢
          exact h0
        · simp only [readsFor, sinkFor, heldFor, bufFor, dispFor,
            Function.update_noteq hk] at h0 ⊢
          cases hct : c.table k with
          | none =>
              simp only [hct] at h0 ⊢
              exact h0
          | some wid2 =>
              have hne : wid2 ≠ wid := by
                intro e
                subst e
                exact hk ((hTbl k wid2 hct).2.1).symm
              simp only [hct, Function.update_noteq hne] at h0 ⊢
              exact h0
      · intro wid' hlt
        rcases eq_or_ne wid' wid with e | e
        · subst e; rw [Function.update_same]; exact hGhost wid' hw
        · rw [Function.update_noteq e]; exact hGhost wid' hlt
      · intro wid' d hlt hpc'
        rcases eq_or_ne wid' wid with e | e
        · subst e
          rw [Function.update_same] at hpc'
          exact WPc.noConfusion hpc'
        · rw [Function.update_noteq e] at hpc' ⊢
          exact hLoop wid' d hlt hpc'
      · intro wid' hlt hpc'
        rcases eq_or_ne wid' wid with e | e
        · subst e
          rw [Function.update_same] at hpc'
          exact WPc.noConfusion hpc'
        · rw [Function.update_noteq e] at hpc' ⊢
          exact hFire wid' hlt hpc'
      · intro wid' hlt hb2
        rcases eq_or_ne wid' wid with e | e
        · subst e
          rw [Function.update_same] at hb2 ⊢
          rcases hQuiet wid' hw hb with h | h
          · rw [heldOf, hpc] at h
            simp at h
          · right
            exact h
        · rw [Function.update_noteq e] at hb2 ⊢
          exact hQuiet wid' hlt hb2
      · intro wid' hlt hpc'
        rcases eq_or_ne wid' wid with e | e
        · subst e
          rw [Function.update_same] at hpc'
          exact WPc.noConfusion hpc'
        · rw [Function.update_noteq e] at hpc' ⊢
          exact hSeed wid' hlt hpc'
  | tick =>
      refine ⟨hTbl, hAct, hNoCl, hCr, hBufU, hHeldU, hDSink, hOrd, ?_,
        hLoop, ?_, hQuiet, hSeed⟩
      · intro wid hlt
        obtain ⟨h1, h2⟩ := hGhost wid hlt
        exact ⟨Nat.le_succ_of_le h1, Nat.le_succ_of_le h2⟩
      · intro wid hlt hpc
        exact Nat.le_succ_of_le (hFire wid hlt hpc)

theorem reach_step {inp : List Request} {c : Config} {l : Label} {c' : Config}
    (h : Reachable inp c) (hs : Step c l c') : Reachable inp c' :=
  h.tail ⟨l, hs⟩

theorem inv_reachable {inp : List Request} {c : Config}
    (h : Reachable inp c) : Inv c := by
  induction h with
  | refl => exact inv_start inp
  | tail hsteps hbc ih =>
      obtain ⟨l, hs⟩ := hbc
      exact inv_step ih hs

/-- The dispatcher's read history and the pending input always partition
the original stream, in order. -/
theorem reads_input {inp : List Request} {c : Config}
    (h : Reachable inp c) : c.reads ++ c.input = inp := by
  induction h with
  | refl => rfl
  | tail hsteps hbc ih =>
      obtain ⟨l, hs⟩ := hbc
      cases hs
      case dRead r rest hpc hin =>
        rw [hin] at ih
        rw [← ih]
        simp
      all_goals exact ih

/-- C1: for every input sequence and every reachable state, the Execution
Sink invocations for a fixed key are an order-preserving prefix of that
key's subsequence of the input stream — per-key FIFO relative to arrival
order, whichever component (dispatcher `MAIN` path or that key's
`userDelayer`) performed each call. -/
theorem c1_per_key_fifo (inp : List Request) (c : Config)
    (h : Reachable inp c) (k : String) :
    ∃ t, inp.filter (fun r => r.UID == k) = sinkFor c k ++ t := by
  refine ⟨heldFor c k ++ bufFor c k ++ dispFor c k ++
    c.input.filter (fun r => r.UID == k), ?_⟩
  have hri : c.reads ++ c.input = inp := reads_input h
  have hord := (inv_reachable h).order k
  rw [← hri, List.filter_append]
  have hreads : c.reads.filter (fun r => r.UID == k) = readsFor c k := rfl
  rw [hreads, hord]
  simp [List.append_assoc]

theorem c1_per_key_fifo_witness :
    ∃ t, List.filter (fun r => r.UID == "user1") ([] : List Request)
      = sinkFor (startCfg []) "user1" ++ t :=
  c1_per_key_fifo [] (startCfg []) Relation.ReflTransGen.refl "user1"

/-- C2: in every reachable state each key has at most one active (not yet
returned) worker; a routing entry always denotes an active worker of that
key, and every active worker owns the routing entry of its key — the
routing table is the mutual-exclusion mechanism. -/
theorem c2_unique_worker (inp : List Request) (c : Config)
    (h : Reachable inp c) :
    (∀ w1 w2, w1 < c.nworkers → w2 < c.nworkers →
      (c.workers w1).pc ≠ .done → (c.workers w2).pc ≠ .done →
      (c.workers w1).uid = (c.workers w2).uid → w1 = w2) ∧
    (∀ k wid, c.table k = some wid →
      wid < c.nworkers ∧ (c.workers wid).uid = k ∧ (c.workers wid).pc ≠ .done) ∧
    (∀ wid, wid < c.nworkers → (c.workers wid).pc ≠ .done →
      c.table (c.workers wid).uid = some wid) := by
  have hinv := inv_reachable h
  refine ⟨?_, ?_, hinv.activeEntry⟩
  · intro w1 w2 h1 h2 hd1 hd2 huid
    have e1 := hinv.activeEntry w1 h1 hd1
    have e2 := hinv.activeEntry w2 h2 hd2
    rw [huid] at e1
    rw [e2] at e1
    injection e1 with e1
    exact e1.symm
  · intro k wid hk
    obtain ⟨h1, h2, h3, h4⟩ := hinv.tblValid k wid hk
    exact ⟨h1, h2, h4⟩

theorem c2_unique_worker_witness :
    (∀ w1 w2, w1 < (startCfg []).nworkers → w2 < (startCfg []).nworkers →
      ((startCfg []).workers w1).pc ≠ .done →
      ((startCfg []).workers w2).pc ≠ .done →
      ((startCfg []).workers w1).uid = ((startCfg []).workers w2).uid →
      w1 = w2) ∧
    (∀ k wid, (startCfg []).table k = some wid →
      wid < (startCfg []).nworkers ∧ ((startCfg []).workers wid).uid = k ∧
      ((startCfg []).workers wid).pc ≠ .done) ∧
    (∀ wid, wid < (startCfg []).nworkers →
      ((startCfg []).workers wid).pc ≠ .done →
      (startCfg []).table ((startCfg []).workers wid).uid = some wid) :=
  c2_unique_worker [] (startCfg []) Relation.ReflTransGen.refl

/-- C3: exactly-once processing.  In every reachable state the sink calls
for a key are a prefix of the requests read for that key (so no request is
ever executed twice or out of turn), and once the dispatcher has finished
and every worker has returned, the sink calls for each key are exactly the
requests read for it — nothing read is dropped, including requests that
were sitting in a worker's queue when its idle timer fired. -/
theorem c3_exactly_once (inp : List Request) (c : Config)
    (h : Reachable inp c) :
    (∀ k, ∃ t, readsFor c k = sinkFor c k ++ t) ∧
    ((c.dpc = .finished ∧
        (∀ wid, wid < c.nworkers → (c.workers wid).pc = .done)) →
      ∀ k, sinkFor c k = readsFor c k) := by
  have hinv := inv_reachable h
  constructor
  · intro k
    exact ⟨heldFor c k ++ bufFor c k ++ dispFor c k,
      by rw [hinv.order k]; simp [List.append_assoc]⟩
  · rintro ⟨hfin, hall⟩ k
    have hord := hinv.order k
    have hheld : heldFor c k = [] ∧ bufFor c k = [] := by
      cases hct : c.table k with
      | none => simp [heldFor, bufFor, hct]
      | some wid =>
          obtain ⟨h1, _, _, h4⟩ := hinv.tblValid k wid hct
          exact absurd (hall wid h1) h4
    have hdisp : dispFor c k = [] := by simp [dispFor, hfin]
    rw [hheld.1, hheld.2, hdisp] at hord
    simp only [List.append_nil] at hord
    exact hord.symm

theorem c3_exactly_once_witness :
    (∀ k, ∃ t, readsFor (startCfg []) k = sinkFor (startCfg []) k ++ t) ∧
    (((startCfg []).dpc = .finished ∧
        (∀ wid, wid < (startCfg []).nworkers →
          ((startCfg []).workers wid).pc = .done)) →
      ∀ k, sinkFor (startCfg []) k = readsFor (startCfg []) k) :=
  c3_exactly_once [] (startCfg []) Relation.ReflTransGen.refl

/-- C10: the dispatcher never sends on a closed per-key queue.  In every
reachable state a routing entry always points at an open channel (so the
send in the `delaying` branch cannot hit a closed one), no channel-misuse
panic has occurred, and no single step from a reachable state can cause
one. -/
theorem c10_no_send_on_closed (inp : List Request) (c : Config)
    (h : Reachable inp c) :
    (∀ k wid, c.table k = some wid →
      wid < c.nworkers ∧ (c.workers wid).closed = false) ∧
    c.crashed = false ∧
    (∀ l c', Step c l c' → c'.crashed = false) := by
  have hinv := inv_reachable h
  refine ⟨?_, hinv.notCrashed, ?_⟩
  · intro k wid hk
    obtain ⟨h1, _, h3, _⟩ := hinv.tblValid k wid hk
    exact ⟨h1, h3⟩
  · intro l c' hs
    exact (inv_step hinv hs).notCrashed

theorem c10_no_send_on_closed_witness :
    (∀ k wid, (startCfg []).table k = some wid →
      wid < (startCfg []).nworkers ∧
      ((startCfg []).workers wid).closed = false) ∧
    (startCfg []).crashed = false ∧
    (∀ l c', Step (startCfg []) l c' → c'.crashed = false) :=
  c10_no_send_on_closed [] (startCfg []) Relation.ReflTransGen.refl

/-- Classification of the dispatcher's possible moves from inside the
critical section for request `r` (lines 35-54): exactly one of the four
branches of `processor` runs, determined by the routing lookup and the
delay flag. -/
theorem step_cs_classify (c : Config) (l : Label) (c' : Config) (r : Request)
    (hpc : c.dpc = .cs r) (hs : Step c l c') (hd : l.isDisp = true) :
    (∃ wid, c.table r.UID = some wid ∧ (c.workers wid).closed = false ∧
      (c.workers wid).buf.length < chanCap ∧ l = .dRoute r wid ∧
      c'.sinkLog = c.sinkLog ∧ c'.dpc = .idle ∧ c'.table = c.table ∧
      c'.nworkers = c.nworkers ∧
      (c'.workers wid).buf = (c.workers wid).buf ++ [r]) ∨
    (∃ wid, c.table r.UID = some wid ∧ (c.workers wid).closed = true ∧
      l = .dRouteClosed r wid ∧ c'.crashed = true) ∨
    (c.table r.UID = none ∧ r.NeedsDelay = true ∧ l = .dSpawn r ∧
      c'.nworkers = c.nworkers + 1 ∧
      c'.table = Function.update c.table r.UID (some c.nworkers) ∧
      c'.workers c.nworkers = ⟨r.UID, .seed0, [r], false, c.now, 0⟩ ∧
      c'.sinkLog = c.sinkLog ∧ c'.dpc = .idle) ∨
    (c.table r.UID = none ∧ r.NeedsDelay = false ∧ l = .dDirect r ∧
      c'.dpc = .sink r ∧ c'.table = c.table ∧ c'.nworkers = c.nworkers ∧
      c'.sinkLog = c.sinkLog) := by
  cases hs
  case dRead r2 rest hpc2 hin =>
    rw [hpc] at hpc2
    exact DPc.noConfusion hpc2
  case dEnd hpc2 hin =>
    rw [hpc] at hpc2
    exact DPc.noConfusion hpc2
  case dLock r2 hpc2 hl =>
    rw [hpc] at hpc2
    exact DPc.noConfusion hpc2
  case dSink r2 hpc2 =>
    rw [hpc] at hpc2
    exact DPc.noConfusion hpc2
  case dRoute r2 wid hpc2 ht hcl hcap =>
    rw [hpc] at hpc2
    injection hpc2 with hpc2
    subst hpc2
    exact Or.inl ⟨wid, ht, hcl, hcap, rfl, rfl, rfl, rfl, rfl, by simp⟩
  case dRouteClosed r2 wid hpc2 ht hcl =>
    rw [hpc] at hpc2
    injection hpc2 with hpc2
    subst hpc2
    exact Or.inr (Or.inl ⟨wid, ht, hcl, rfl, rfl⟩)
  case dSpawn r2 hpc2 ht hdl =>
    rw [hpc] at hpc2
    injection hpc2 with hpc2
    subst hpc2
    exact Or.inr (Or.inr (Or.inl ⟨ht, hdl, rfl, rfl, rfl, by simp, rfl, rfl⟩))
  case dDirect r2 hpc2 ht hdl =>
    rw [hpc] at hpc2
    injection hpc2 with hpc2
    subst hpc2
    exact Or.inr (Or.inr (Or.inr ⟨ht, hdl, rfl, rfl, rfl, rfl, rfl⟩))
  all_goals simp [Label.isDisp] at hd

/-- Classification of a worker's possible moves once its idle timer fire
has been consumed (`case <-timer.C:`, lines 99-115). -/
theorem step_firing_classify (c : Config) (l : Label) (c' : Config)
    (wid : Nat) (hpc : (c.workers wid).pc = .firing)
    (hs : Step c l c') (hw : l.widOf = some wid) :
    ((c.workers wid).buf ≠ [] ∧ l = .wExtend wid ∧ c.dLock = false ∧
      c'.table = c.table ∧ c'.sinkLog = c.sinkLog ∧
      (c'.workers wid).pc = .loop (c.now + delay) ∧
      (c'.workers wid).buf = (c.workers wid).buf) ∨
    ((c.workers wid).buf = [] ∧ l = .wShutdown wid ∧ c.dLock = false ∧
      c'.table = Function.update c.table (c.workers wid).uid none ∧
      c'.sinkLog = c.sinkLog ∧ (c'.workers wid).pc = .done ∧
      (c'.workers wid).closed = true) := by
  cases hs
  case wExtend wid2 hw2 hpc2 hl hb =>
    simp only [Label.widOf, Option.some.injEq] at hw
    subst hw
    exact Or.inl ⟨hb, rfl, hl, rfl, rfl, by simp, by simp⟩
  case wShutdown wid2 hw2 hpc2 hl hb =>
    simp only [Label.widOf, Option.some.injEq] at hw
    subst hw
    exact Or.inr ⟨hb, rfl, hl, rfl, rfl, by simp, by simp⟩
  case wSeedRecv wid2 r2 brest hw2 hpc2 hb =>
    simp only [Label.widOf, Option.some.injEq] at hw
    subst hw
    rw [hpc] at hpc2
    exact WPc.noConfusion hpc2
  case wSeedClosed wid2 hw2 hpc2 hb hcl =>
    simp only [Label.widOf, Option.some.injEq] at hw
    subst hw
    rw [hpc] at hpc2
    exact WPc.noConfusion hpc2
  case wSeedPanic wid2 hw2 hpc2 hl =>
    simp only [Label.widOf, Option.some.injEq] at hw
    subst hw
    rw [hpc] at hpc2
    exact WPc.noConfusion hpc2
  case wSeedSink wid2 r2 hw2 hpc2 =>
    simp only [Label.widOf, Option.some.injEq] at hw
    subst hw
    rw [hpc] at hpc2
    exact WPc.noConfusion hpc2
  case wSeedArm wid2 hw2 hpc2 =>
    simp only [Label.widOf, Option.some.injEq] at hw
    subst hw
    rw [hpc] at hpc2
    exact WPc.noConfusion hpc2
  case wRecv wid2 d r2 brest hw2 hpc2 hb =>
    simp only [Label.widOf, Option.some.injEq] at hw
    subst hw
    rw [hpc] at hpc2
    exact WPc.noConfusion hpc2
  case wRecvClosed wid2 d hw2 hpc2 hb hcl =>
    simp only [Label.widOf, Option.some.injEq] at hw
    subst hw
    rw [hpc] at hpc2
    exact WPc.noConfusion hpc2
  case wFire wid2 d hw2 hpc2 hdl =>
    simp only [Label.widOf, Option.some.injEq] at hw
    subst hw
    rw [hpc] at hpc2
    exact WPc.noConfusion hpc2
  case wSink wid2 r2 hw2 hpc2 =>
    simp only [Label.widOf, Option.some.injEq] at hw
    subst hw
    rw [hpc] at hpc2
    exact WPc.noConfusion hpc2
  case wSleep wid2 r2 hw2 hpc2 hdl =>
    simp only [Label.widOf, Option.some.injEq] at hw
    subst hw
    rw [hpc] at hpc2
    exact WPc.noConfusion hpc2
  case wArm wid2 r2 hw2 hpc2 hdl =>
    simp only [Label.widOf, Option.some.injEq] at hw
    subst hw
    rw [hpc] at hpc2
    exact WPc.noConfusion hpc2
  case wWake wid2 t hw2 hpc2 hdl =>
    simp only [Label.widOf, Option.some.injEq] at hw
    subst hw
    rw [hpc] at hpc2
    exact WPc.noConfusion hpc2
  all_goals simp [Label.widOf] at hw

/-- Classification of a worker's possible moves while blocked in `select`
with an armed timer (lines 81-99): receive a buffered request, observe the
channel closed, or consume the timer fire once the deadline has passed. -/
theorem step_loop_classify (c : Config) (l : Label) (c' : Config)
    (wid : Nat) (d : Nat) (hpc : (c.workers wid).pc = .loop d)
    (hs : Step c l c') (hw : l.widOf = some wid) :
    (∃ r brest, (c.workers wid).buf = r :: brest ∧ l = .wRecv wid r ∧
      (c'.workers wid).pc = .got r ∧ (c'.workers wid).buf = brest ∧
      c'.sinkLog = c.sinkLog) ∨
    ((c.workers wid).buf = [] ∧ (c.workers wid).closed = true ∧
      l = .wRecvClosed wid ∧ (c'.workers wid).pc = .done) ∨
    (d ≤ c.now ∧ l = .wFire wid ∧ (c'.workers wid).pc = .firing ∧
      (c'.workers wid).buf = (c.workers wid).buf ∧
      c'.sinkLog = c.sinkLog ∧ c'.table = c.table) := by
  cases hs
  case wRecv wid2 d2 r2 brest hw2 hpc2 hb =>
    simp only [Label.widOf, Option.some.injEq] at hw
    subst hw
    exact Or.inl ⟨r2, brest, hb, rfl, by simp, by simp, rfl⟩
  case wRecvClosed wid2 d2 hw2 hpc2 hb hcl =>
    simp only [Label.widOf, Option.some.injEq] at hw
    subst hw
    exact Or.inr (Or.inl ⟨hb, hcl, rfl, by simp⟩)
  case wFire wid2 d2 hw2 hpc2 hdl =>
    simp only [Label.widOf, Option.some.injEq] at hw
    subst hw
    rw [hpc] at hpc2
    injection hpc2 with hpc2
    subst hpc2
    exact Or.inr (Or.inr ⟨hdl, rfl, by simp, by simp, rfl, rfl⟩)
  all_goals
    first
      | (simp only [Label.widOf] at hw
         exact Option.noConfusion hw)
      | (simp only [Label.widOf, Option.some.injEq] at hw
         subst hw
         simp_all)

/-- Classification of a worker's possible move right after the sink call
for a dequeued request `r` (lines 92-96): sleep a full window when `r` is
delay-flagged, otherwise re-arm the idle timer immediately. -/
theorem step_after_classify (c : Config) (l : Label) (c' : Config)
    (wid : Nat) (r : Request) (hpc : (c.workers wid).pc = .after r)
    (hs : Step c l c') (hw : l.widOf = some wid) :
    (r.NeedsDelay = true ∧ l = .wSleep wid ∧
      (c'.workers wid).pc = .sleeping (c.now + delay) ∧
      c'.sinkLog = c.sinkLog) ∨
    (r.NeedsDelay = false ∧ l = .wArm wid ∧
      (c'.workers wid).pc = .loop (c.now + delay) ∧
      c'.sinkLog = c.sinkLog) := by
  cases hs
  case wSleep wid2 r2 hw2 hpc2 hdl =>
    simp only [Label.widOf, Option.some.injEq] at hw
    subst hw
    rw [hpc] at hpc2
    injection hpc2 with hpc2
    subst hpc2
    exact Or.inl ⟨hdl, rfl, by simp, rfl⟩
  case wArm wid2 r2 hw2 hpc2 hdl =>
    simp only [Label.widOf, Option.some.injEq] at hw
    subst hw
    rw [hpc] at hpc2
    injection hpc2 with hpc2
    subst hpc2
    exact Or.inr ⟨hdl, rfl, by simp, rfl⟩
  all_goals
    first
      | (simp only [Label.widOf] at hw
         exact Option.noConfusion hw)
      | (simp only [Label.widOf, Option.some.injEq] at hw
         subst hw
         simp_all)

/-- A sleeping worker's only move is waking once the full window has
elapsed, and it then re-arms the timer (lines 93-96). -/
theorem step_sleeping_classify (c : Config) (l : Label) (c' : Config)
    (wid : Nat) (t : Nat) (hpc : (c.workers wid).pc = .sleeping t)
    (hs : Step c l c') (hw : l.widOf = some wid) :
    t ≤ c.now ∧ l = .wWake wid ∧
      (c'.workers wid).pc = .loop (c.now + delay) ∧
      c'.sinkLog = c.sinkLog := by
  cases hs
  case wWake wid2 t2 hw2 hpc2 hdl =>
    simp only [Label.widOf, Option.some.injEq] at hw
    subst hw
    rw [hpc] at hpc2
    injection hpc2 with hpc2
    subst hpc2
    exact ⟨hdl, rfl, by simp, rfl⟩
  all_goals
    first
      | (simp only [Label.widOf] at hw
         exact Option.noConfusion hw)
      | (simp only [Label.widOf, Option.some.injEq] at hw
         subst hw
         simp_all)

/-- After the seed request's sink call, the worker's only move is arming
the idle timer (line 79) — with no sleep, in the same instant. -/
theorem step_seedAfter_classify (c : Config) (l : Label) (c' : Config)
    (wid : Nat) (hpc : (c.workers wid).pc = .seedAfter)
    (hs : Step c l c') (hw : l.widOf = some wid) :
    l = .wSeedArm wid ∧ (c'.workers wid).pc = .loop (c.now + delay) ∧
      c'.sinkLog = c.sinkLog ∧ c'.now = c.now := by
  cases hs
  case wSeedArm wid2 hw2 hpc2 =>
    simp only [Label.widOf, Option.some.injEq] at hw
    subst hw
    exact ⟨rfl, by simp, rfl, rfl⟩
  all_goals
    first
      | (simp only [Label.widOf] at hw
         exact Option.noConfusion hw)
      | (simp only [Label.widOf, Option.some.injEq] at hw
         subst hw
         simp_all)

/-- C4: while the routing table holds an entry for a request's key, the
only dispatcher move from inside the critical section is to enqueue the
request onto that entry's queue — regardless of the request's delay flag
and with no sink call — and the dispatcher is never on its
direct-execution path for a key that has an entry. -/
theorem c4_entry_always_routes :
    (∀ (inp : List Request) (c : Config) (l : Label) (c' : Config)
        (r : Request) (wid : Nat),
      Reachable inp c → c.dpc = .cs r → c.table r.UID = some wid →
      Step c l c' → l.isDisp = true →
      l = .dRoute r wid ∧ c'.sinkLog = c.sinkLog ∧ c'.table = c.table ∧
        (c'.workers wid).buf = (c.workers wid).buf ++ [r]) ∧
    (∀ (inp : List Request) (c : Config) (r : Request),
      Reachable inp c → c.dpc = .sink r → c.table r.UID = none) := by
  constructor
  · intro inp c l c' r wid hreach hpc ht hs hd
    have hinv := inv_reachable hreach
    rcases step_cs_classify c l c' r hpc hs hd with
      ⟨wid2, ht2, hcl2, hcap2, hl, h5, h6, h7, h8, h9⟩ |
      ⟨wid2, ht2, hcl2, hl, hcr⟩ | ⟨htn, _⟩ | ⟨htn, _⟩
    · rw [ht] at ht2
      injection ht2 with ht2
      subst ht2
      exact ⟨hl, h5, h7, h9⟩
    · rw [ht] at ht2
      injection ht2 with ht2
      subst ht2
      have := (hinv.tblValid _ wid ht).2.2.1
      rw [this] at hcl2
      exact Bool.noConfusion hcl2
    · rw [ht] at htn
      exact Option.noConfusion htn
    · rw [ht] at htn
      exact Option.noConfusion htn
  · intro inp c r hreach hpc
    exact (inv_reachable hreach).dSinkFree r hpc

/-- C5: from the critical section with no routing entry for the key, the
dispatcher spawns a worker seeded with a fresh one-element queue exactly
when the delay flag is set (installing the entry and calling no sink), and
otherwise releases the lock and performs exactly one synchronous sink
invocation, spawning no worker and installing no entry. -/
theorem c5_no_entry_dispatch :
    (∀ (c : Config) (l : Label) (c' : Config) (r : Request),
      c.dpc = .cs r → c.table r.UID = none → r.NeedsDelay = true →
      Step c l c' → l.isDisp = true →
      l = .dSpawn r ∧ c'.nworkers = c.nworkers + 1 ∧
        c'.table = Function.update c.table r.UID (some c.nworkers) ∧
        c'.workers c.nworkers = ⟨r.UID, .seed0, [r], false, c.now, 0⟩ ∧
        c'.sinkLog = c.sinkLog) ∧
    (∀ (c : Config) (l : Label) (c' : Config) (r : Request),
      c.dpc = .cs r → c.table r.UID = none → r.NeedsDelay = false →
      Step c l c' → l.isDisp = true →
      l = .dDirect r ∧ c'.dpc = .sink r ∧ c'.table = c.table ∧
        c'.nworkers = c.nworkers ∧ c'.sinkLog = c.sinkLog) ∧
    (∀ (c : Config) (l : Label) (c' : Config) (r : Request),
      c.dpc = .sink r → Step c l c' → l.isDisp = true →
      l = .dSink r ∧ c'.sinkLog = c.sinkLog ++ [⟨r, .main, c.now⟩] ∧
        c'.table = c.table ∧ c'.nworkers = c.nworkers) := by
  refine ⟨?_, ?_, ?_⟩
  · intro c l c' r hpc ht hdl hs hd
    rcases step_cs_classify c l c' r hpc hs hd with
      ⟨wid2, ht2, _⟩ | ⟨wid2, ht2, _⟩ |
      ⟨_, _, hl, h4, h5, h6, h7, _⟩ | ⟨_, hdl2, _⟩
    · rw [ht] at ht2
      exact Option.noConfusion ht2
    · rw [ht] at ht2
      exact Option.noConfusion ht2
    · exact ⟨hl, h4, h5, h6, h7⟩
    · rw [hdl] at hdl2
      exact Bool.noConfusion hdl2
  · intro c l c' r hpc ht hdl hs hd
    rcases step_cs_classify c l c' r hpc hs hd with
      ⟨wid2, ht2, _⟩ | ⟨wid2, ht2, _⟩ |
      ⟨_, hdl2, _⟩ | ⟨_, _, hl, h4, h5, h6, h7⟩
    · rw [ht] at ht2
      exact Option.noConfusion ht2
    · rw [ht] at ht2
      exact Option.noConfusion ht2
    · rw [hdl] at hdl2
      exact Bool.noConfusion hdl2
    · exact ⟨hl, h4, h5, h6, h7⟩
  · intro c l c' r hpc hs hd
    cases hs
    case dRead r2 rest hpc2 hin =>
      rw [hpc] at hpc2
      exact DPc.noConfusion hpc2
    case dEnd hpc2 hin =>
      rw [hpc] at hpc2
      exact DPc.noConfusion hpc2
    case dLock r2 hpc2 hl =>
      rw [hpc] at hpc2
      exact DPc.noConfusion hpc2
    case dRoute r2 wid hpc2 ht hcl hcap =>
      rw [hpc] at hpc2
      exact DPc.noConfusion hpc2
    case dRouteClosed r2 wid hpc2 ht hcl =>
      rw [hpc] at hpc2
      exact DPc.noConfusion hpc2
    case dSpawn r2 hpc2 ht hdl =>
      rw [hpc] at hpc2
      exact DPc.noConfusion hpc2
    case dDirect r2 hpc2 ht hdl =>
      rw [hpc] at hpc2
      exact DPc.noConfusion hpc2
    case dSink r2 hpc2 =>
      rw [hpc] at hpc2
      injection hpc2 with hpc2
      subst hpc2
      exact ⟨rfl, rfl, rfl, rfl⟩
    all_goals simp [Label.isDisp] at hd

/-- C7: when a worker's consumed timer fire reaches the locked re-check,
either the queue is non-empty — it re-arms the timer, consumes nothing and
keeps the routing entry — or the queue is empty — it removes the entry,
closes the channel and terminates; both run as one critical section
(enabled only with the routing-table mutex free) of the same lock used at
creation. -/
theorem c7_expiry_dichotomy (c : Config) (l : Label) (c' : Config)
    (wid : Nat) (hpc : (c.workers wid).pc = .firing)
    (hs : Step c l c') (hw : l.widOf = some wid) :
    ((c.workers wid).buf ≠ [] →
      l = .wExtend wid ∧ c.dLock = false ∧ c'.table = c.table ∧
        (c'.workers wid).buf = (c.workers wid).buf ∧
        c'.sinkLog = c.sinkLog ∧
        (c'.workers wid).pc = .loop (c.now + delay)) ∧
    ((c.workers wid).buf = [] →
      l = .wShutdown wid ∧ c.dLock = false ∧
        c'.table = Function.update c.table (c.workers wid).uid none ∧
        (c'.workers wid).closed = true ∧ (c'.workers wid).pc = .done ∧
        c'.sinkLog = c.sinkLog) := by
  rcases step_firing_classify c l c' wid hpc hs hw with
    ⟨hb, h2, h3, h4, h5, h6, h7⟩ | ⟨hb, h2, h3, h4, h5, h6, h7⟩
  · constructor
    · intro _
      exact ⟨h2, h3, h4, h7, h5, h6⟩
    · intro hb2
      exact absurd hb2 hb
  · constructor
    · intro hb2
      exact absurd hb hb2
    · intro _
      exact ⟨h2, h3, h4, h7, h6, h5⟩

theorem reach_ticks {inp : List Request} {c : Config} (n : Nat)
    (h : Reachable inp c) : Reachable inp { c with now := c.now + n } := by
  induction n with
  | zero => exact h
  | succ n ih => exact reach_step ih (Step.tick _)

theorem reach_cfgA6 : Reachable cexInp cfgA6 := by
  have h0 : Reachable cexInp (startCfg cexInp) := Relation.ReflTransGen.refl
  have h1 : Reachable cexInp cfgA1 :=
    reach_step h0 (Step.dRead _ rA [rB] rfl rfl)
  have h2 : Reachable cexInp cfgA2 :=
    reach_step h1 (Step.dLock _ rA rfl rfl)
  have h3 : Reachable cexInp cfgA3 :=
    reach_step h2 (Step.dSpawn _ rA rfl rfl rfl)
  have h4 : Reachable cexInp cfgA4 :=
    reach_step h3 (Step.wSeedRecv _ 0 rA [] (by decide) rfl rfl)
  have h5 : Reachable cexInp cfgA5 :=
    reach_step h4 (Step.wSeedSink _ 0 rA (by decide) rfl)
  exact reach_step h5 (Step.wSeedArm _ 0 (by decide) rfl)

theorem reach_cfgA8 : Reachable cexInp cfgA8 := by
  have h7 : Reachable cexInp cfgA7 :=
    reach_step reach_cfgA6 (Step.dRead _ rB [] rfl rfl)
  exact reach_step h7 (Step.dLock _ rB rfl rfl)

theorem reach_cfgA11 : Reachable cexInp cfgA11 := by
  have h9 : Reachable cexInp cfgA9 :=
    reach_step reach_cfgA8 (Step.dRoute _ rB 0 rfl rfl rfl (by decide))
  have h10 : Reachable cexInp cfgA10 :=
    reach_step h9 (Step.wRecv _ 0 100 rB [] (by decide) rfl rfl)
  exact reach_step h10 (Step.wSink _ 0 rB (by decide) rfl)

theorem reach_cfgFiring : Reachable cexInp cfgFiring := by
  have ht : Reachable cexInp cfgA6t := reach_ticks 100 reach_cfgA6
  exact reach_step ht (Step.wFire _ 0 100 (by decide) rfl (by decide))

theorem reach_cfgB3 : Reachable plainInp cfgB3 := by
  have h0 : Reachable plainInp (startCfg plainInp) := Relation.ReflTransGen.refl
  have h1 : Reachable plainInp cfgB1 :=
    reach_step h0 (Step.dRead _ rB [] rfl rfl)
  have h2 : Reachable plainInp cfgB2 :=
    reach_step h1 (Step.dLock _ rB rfl rfl)
  exact reach_step h2 (Step.dDirect _ rB rfl rfl rfl)

theorem c4_entry_always_routes_witness :
    (Label.dRoute rB 0 = Label.dRoute rB 0 ∧ cfgA9.sinkLog = cfgA8.sinkLog ∧
      cfgA9.table = cfgA8.table ∧
      (cfgA9.workers 0).buf = (cfgA8.workers 0).buf ++ [rB]) ∧
    cfgB3.table rB.UID = none :=
  ⟨c4_entry_always_routes.1 cexInp cfgA8 (.dRoute rB 0) cfgA9 rB 0
      reach_cfgA8 rfl rfl (Step.dRoute cfgA8 rB 0 rfl rfl rfl (by decide)) rfl,
   c4_entry_always_routes.2 plainInp cfgB3 rB reach_cfgB3 rfl⟩

theorem c5_no_entry_dispatch_witness :
    (Label.dSpawn rA = Label.dSpawn rA ∧ cfgA3.nworkers = cfgA2.nworkers + 1 ∧
      cfgA3.table = Function.update cfgA2.table rA.UID (some cfgA2.nworkers) ∧
      cfgA3.workers cfgA2.nworkers = ⟨rA.UID, .seed0, [rA], false, cfgA2.now, 0⟩ ∧
      cfgA3.sinkLog = cfgA2.sinkLog) ∧
    (Label.dDirect rB = Label.dDirect rB ∧ cfgB3.dpc = .sink rB ∧
      cfgB3.table = cfgB2.table ∧ cfgB3.nworkers = cfgB2.nworkers ∧
      cfgB3.sinkLog = cfgB2.sinkLog) ∧
    (Label.dSink rB = Label.dSink rB ∧
      cfgB4.sinkLog = cfgB3.sinkLog ++ [⟨rB, .main, cfgB3.now⟩] ∧
      cfgB4.table = cfgB3.table ∧ cfgB4.nworkers = cfgB3.nworkers) :=
  ⟨c5_no_entry_dispatch.1 cfgA2 (.dSpawn rA) cfgA3 rA rfl rfl rfl
      (Step.dSpawn cfgA2 rA rfl rfl rfl) rfl,
   c5_no_entry_dispatch.2.1 cfgB2 (.dDirect rB) cfgB3 rB rfl rfl rfl
      (Step.dDirect cfgB2 rB rfl rfl rfl) rfl,
   c5_no_entry_dispatch.2.2 cfgB3 (.dSink rB) cfgB4 rB rfl
      (Step.dSink cfgB3 rB rfl) rfl⟩

theorem c7_expiry_dichotomy_witness :
    ((cfgFiring.workers 0).buf ≠ [] →
      Label.wShutdown 0 = Label.wExtend 0 ∧ cfgFiring.dLock = false ∧
        cfgDone.table = cfgFiring.table ∧
        (cfgDone.workers 0).buf = (cfgFiring.workers 0).buf ∧
        cfgDone.sinkLog = cfgFiring.sinkLog ∧
        (cfgDone.workers 0).pc = .loop (cfgFiring.now + delay)) ∧
    ((cfgFiring.workers 0).buf = [] →
      Label.wShutdown 0 = Label.wShutdown 0 ∧ cfgFiring.dLock = false ∧
        cfgDone.table =
          Function.update cfgFiring.table (cfgFiring.workers 0).uid none ∧
        (cfgDone.workers 0).closed = true ∧ (cfgDone.workers 0).pc = .done ∧
        cfgDone.sinkLog = cfgFiring.sinkLog) :=
  c7_expiry_dichotomy cfgFiring (.wShutdown 0) cfgDone 0 rfl
    (Step.wShutdown cfgFiring 0 (by decide) rfl rfl rfl) rfl

/-- In a reachable state, the only step that can turn a live worker's pc
into `done` is that worker's own shutdown critical section — the dead
`!ok` receive branches never run. -/
theorem done_only_by_shutdown {inp : List Request} {c : Config} {l : Label}
    {c' : Config} (wid : Nat) (hreach : Reachable inp c) (hs : Step c l c')
    (hw : wid < c.nworkers) (hnd : (c.workers wid).pc ≠ .done)
    (hdone : (c'.workers wid).pc = .done) : l = .wShutdown wid := by
  have hinv := inv_reachable hreach
  cases hs
  case dRead r rest hpc hin => exact absurd hdone hnd
  case dEnd hpc hin => exact absurd hdone hnd
  case dLock r hpc hl => exact absurd hdone hnd
  case dRouteClosed r wid2 hpc hta hcl => exact absurd hdone hnd
  case dDirect r hpc hta hdl => exact absurd hdone hnd
  case dSink r hpc => exact absurd hdone hnd
  case tick => exact absurd hdone hnd
  case dRoute r wid2 hpc hta hcl hcap =>
    dsimp only at hdone
    rcases eq_or_ne wid wid2 with e | e
    · subst e
      rw [Function.update_same] at hdone
      exact absurd hdone hnd
    · rw [Function.update_noteq e] at hdone
      exact absurd hdone hnd
  case dSpawn r hpc hta hdl =>
    dsimp only at hdone
    rw [Function.update_noteq (Nat.ne_of_lt hw)] at hdone
    exact absurd hdone hnd
  case wSeedRecv wid2 r brest hw2 hpc hb =>
    dsimp only at hdone
    rcases eq_or_ne wid wid2 with e | e
    · subst e
      rw [Function.update_same] at hdone
      exact WPc.noConfusion hdone
    · rw [Function.update_noteq e] at hdone
      exact absurd hdone hnd
  case wSeedClosed wid2 hw2 hpc hb hcl =>
    dsimp only at hdone
    rcases eq_or_ne wid wid2 with e | e
    · subst e
      rw [Function.update_same] at hdone
      exact WPc.noConfusion hdone
    · rw [Function.update_noteq e] at hdone
      exact absurd hdone hnd
  case wSeedPanic wid2 hw2 hpc hl =>
    exact absurd hpc (hinv.noSeedCl wid2 hw2)
  case wSeedSink wid2 r hw2 hpc =>
    dsimp only at hdone
    rcases eq_or_ne wid wid2 with e | e
    · subst e
      rw [Function.update_same] at hdone
      exact WPc.noConfusion hdone
    · rw [Function.update_noteq e] at hdone
      exact absurd hdone hnd
  case wSeedArm wid2 hw2 hpc =>
    dsimp only at hdone
    rcases eq_or_ne wid wid2 with e | e
    · subst e
      rw [Function.update_same] at hdone
      exact WPc.noConfusion hdone
    · rw [Function.update_noteq e] at hdone
      exact absurd hdone hnd
  case wRecv wid2 d r brest hw2 hpc hb =>
    dsimp only at hdone
    rcases eq_or_ne wid wid2 with e | e
    · subst e
      rw [Function.update_same] at hdone
      exact WPc.noConfusion hdone
    · rw [Function.update_noteq e] at hdone
      exact absurd hdone hnd
  case wRecvClosed wid2 d hw2 hpc hb hcl =>
    have h1 : c.table (c.workers wid2).uid = some wid2 :=
      hinv.activeEntry wid2 hw2 (by simp [hpc])
    have h2 := (hinv.tblValid _ wid2 h1).2.2.1
    rw [hcl] at h2
    exact Bool.noConfusion h2
  case wFire wid2 d hw2 hpc hdl =>
    dsimp only at hdone
    rcases eq_or_ne wid wid2 with e | e
    · subst e
      rw [Function.update_same] at hdone
      exact WPc.noConfusion hdone
    · rw [Function.update_noteq e] at hdone
      exact absurd hdone hnd
  case wSink wid2 r hw2 hpc =>
    dsimp only at hdone
    rcases eq_or_ne wid wid2 with e | e
    · subst e
      rw [Function.update_same] at hdone
      exact WPc.noConfusion hdone
    · rw [Function.update_noteq e] at hdone
      exact absurd hdone hnd
  case wSleep wid2 r hw2 hpc hdl =>
    dsimp only at hdone
    rcases eq_or_ne wid wid2 with e | e
    · subst e
      rw [Function.update_same] at hdone
      exact WPc.noConfusion hdone
    · rw [Function.update_noteq e] at hdone
      exact absurd hdone hnd
  case wArm wid2 r hw2 hpc hdl =>
    dsimp only at hdone
    rcases eq_or_ne wid wid2 with e | e
    · subst e
      rw [Function.update_same] at hdone
      exact WPc.noConfusion hdone
    · rw [Function.update_noteq e] at hdone
      exact absurd hdone hnd
  case wWake wid2 t hw2 hpc hdl =>
    dsimp only at hdone
    rcases eq_or_ne wid wid2 with e | e
    · subst e
      rw [Function.update_same] at hdone
      exact WPc.noConfusion hdone
    · rw [Function.update_noteq e] at hdone
      exact absurd hdone hnd
  case wExtend wid2 hw2 hpc hl hb =>
    dsimp only at hdone
    rcases eq_or_ne wid wid2 with e | e
    · subst e
      rw [Function.update_same] at hdone
      exact WPc.noConfusion hdone
    · rw [Function.update_noteq e] at hdone
      exact absurd hdone hnd
  case wShutdown wid2 hw2 hpc hl hb =>
    dsimp only at hdone
    rcases eq_or_ne wid wid2 with e | e
    · subst e
      rfl
    · rw [Function.update_noteq e] at hdone
      exact absurd hdone hnd

/-- C6: worker termination happens exactly at the end of an idle window.
Conjuncts: (1) a shutdown step only happens at least one full window after
the worker's most recent sink call, with nothing having been enqueued
since that call; (2) an armed timer's deadline is at least one window
after the most recent sink call; (3) while the queue is empty and the
channel open, the worker's only possible move from the select loop is
consuming the timer fire, which is enabled only once the deadline has
passed; (4) from a consumed fire with an empty queue the only possible
move is the shutdown that removes the routing entry; (5) and (6): those
two moves are in fact enabled, so under any fair scheduler a worker whose
key stays silent for a full window does terminate; (7) in a reachable
state a live worker's pc can become `done` only through that shutdown
step, so (1) characterises every termination. -/
theorem c6_termination_iff_idle :
    (∀ (inp : List Request) (c c' : Config) (wid : Nat),
      Reachable inp c → Step c (.wShutdown wid) c' →
      delay ≤ c.now ∧ (c.workers wid).lastSink + delay ≤ c.now ∧
        (c.workers wid).lastEnq ≤ (c.workers wid).lastSink) ∧
    (∀ (inp : List Request) (c : Config) (wid d : Nat),
      Reachable inp c → wid < c.nworkers → (c.workers wid).pc = .loop d →
      (c.workers wid).lastSink + delay ≤ d) ∧
    (∀ (c : Config) (l : Label) (c' : Config) (wid d : Nat),
      (c.workers wid).pc = .loop d → (c.workers wid).buf = [] →
      (c.workers wid).closed = false → Step c l c' → l.widOf = some wid →
      l = .wFire wid ∧ d ≤ c.now ∧ (c'.workers wid).pc = .firing) ∧
    (∀ (c : Config) (l : Label) (c' : Config) (wid : Nat),
      (c.workers wid).pc = .firing → (c.workers wid).buf = [] →
      Step c l c' → l.widOf = some wid →
      l = .wShutdown wid ∧ (c'.workers wid).pc = .done ∧
        c'.table = Function.update c.table (c.workers wid).uid none) ∧
    (∀ (c : Config) (wid d : Nat), wid < c.nworkers →
      (c.workers wid).pc = .loop d → d ≤ c.now →
      ∃ c', Step c (.wFire wid) c') ∧
    (∀ (c : Config) (wid : Nat), wid < c.nworkers →
      (c.workers wid).pc = .firing → c.dLock = false →
      (c.workers wid).buf = [] → ∃ c', Step c (.wShutdown wid) c') ∧
    (∀ (inp : List Request) (c : Config) (l : Label) (c' : Config)
        (wid : Nat),
      Reachable inp c → Step c l c' → wid < c.nworkers →
      (c.workers wid).pc ≠ .done → (c'.workers wid).pc = .done →
      l = .wShutdown wid) := by
  refine ⟨?_, ?_, ?_, ?_, ?_, ?_, ?_⟩
  · intro inp c c' wid hreach hs
    have hinv := inv_reachable hreach
    cases hs with
    | wShutdown _ hw hpc hl hb =>
        have h1 := hinv.fireNow wid hw hpc
        refine ⟨le_trans (Nat.le_add_left delay _) h1, h1, ?_⟩
        rcases hinv.quiet wid hw hb with hleft | hright
        · simp [heldOf, hpc] at hleft
        · exact hright
  · intro inp c wid d hreach hw hpc
    exact (inv_reachable hreach).loopArm wid d hw hpc
  · intro c l c' wid d hpc hb hcl hs hw
    rcases step_loop_classify c l c' wid d hpc hs hw with
      ⟨r, brest, hb2, _⟩ | ⟨_, hcl2, _⟩ | ⟨h1, h2, h3, _⟩
    · rw [hb] at hb2
      exact List.noConfusion hb2
    · rw [hcl] at hcl2
      exact Bool.noConfusion hcl2
    · exact ⟨h2, h1, h3⟩
  · intro c l c' wid hpc hb hs hw
    rcases step_firing_classify c l c' wid hpc hs hw with
      ⟨hb2, _⟩ | ⟨_, h2, _, h4, _, h6, _⟩
    · exact absurd hb hb2
    · exact ⟨h2, h6, h4⟩
  · intro c wid d hw hpc hd
    exact ⟨_, Step.wFire c wid d hw hpc hd⟩
  · intro c wid hw hpc hl hb
    exact ⟨_, Step.wShutdown c wid hw hpc hl hb⟩
  · intro inp c l c' wid hreach hs hw hnd hdone
    exact done_only_by_shutdown wid hreach hs hw hnd hdone

theorem c6_termination_iff_idle_witness :
    (delay ≤ cfgFiring.now ∧
      (cfgFiring.workers 0).lastSink + delay ≤ cfgFiring.now ∧
      (cfgFiring.workers 0).lastEnq ≤ (cfgFiring.workers 0).lastSink) ∧
    (cfgA6.workers 0).lastSink + delay ≤ 100 ∧
    (∃ c', Step cfgFiring (.wShutdown 0) c') ∧
    Label.wShutdown 0 = Label.wShutdown 0 :=
  ⟨c6_termination_iff_idle.1 cexInp cfgFiring cfgDone 0 reach_cfgFiring
      (Step.wShutdown cfgFiring 0 (by decide) rfl rfl rfl),
   c6_termination_iff_idle.2.1 cexInp cfgA6 0 100 reach_cfgA6 (by decide) rfl,
   c6_termination_iff_idle.2.2.2.2.2.1 cfgFiring 0 (by decide) rfl rfl rfl,
   c6_termination_iff_idle.2.2.2.2.2.2 cexInp cfgFiring (.wShutdown 0) cfgDone 0
     reach_cfgFiring (Step.wShutdown cfgFiring 0 (by decide) rfl rfl rfl)
     (by decide) (by decide) rfl⟩

/-- The only move of a worker holding a dequeued request `r` is the sink
call for `r` (line 89). -/
theorem step_got_classify (c : Config) (l : Label) (c' : Config)
    (wid : Nat) (r : Request) (hpc : (c.workers wid).pc = .got r)
    (hs : Step c l c') (hw : l.widOf = some wid) :
    l = .wSink wid r ∧
      c'.sinkLog = c.sinkLog ++ [⟨r, .delayer wid, c.now⟩] ∧
      (c'.workers wid).pc = .after r := by
  cases hs
  case wSink wid2 r2 hw2 hpc2 =>
    simp only [Label.widOf, Option.some.injEq] at hw
    subst hw
    rw [hpc] at hpc2
    injection hpc2 with hpc2
    subst hpc2
    exact ⟨rfl, rfl, by simp⟩
  all_goals
    first
      | (simp only [Label.widOf] at hw
         exact Option.noConfusion hw)
      | (simp only [Label.widOf, Option.some.injEq] at hw
         subst hw
         simp_all)

/-- C8 counterexample: the claim — after sinking a delay-flagged request
(including the seed request) a worker sleeps a full window before doing
anything further — implies that any later sink call by the same worker
comes at least `delay` after a delay-flagged one.  The concrete reachable
state `cfgA11` refutes this: worker 0 sinks the delay-flagged seed `rA`
and then `rB`, both at clock 0, because the seed path (lines 65-79) has no
`time.Sleep` — the sleep exists only in the select loop (line 93). -/
theorem c8_seed_sleep_cex :
    ¬(∀ (inp : List Request) (c : Config), Reachable inp c →
      ∀ (i j : Nat) (hi : i < c.sinkLog.length) (hj : j < c.sinkLog.length)
        (wid : Nat), i < j →
        (c.sinkLog.get ⟨i, hi⟩).who = .delayer wid →
        (c.sinkLog.get ⟨j, hj⟩).who = .delayer wid →
        (c.sinkLog.get ⟨i, hi⟩).req.NeedsDelay = true →
        (c.sinkLog.get ⟨i, hi⟩).time + delay ≤ (c.sinkLog.get ⟨j, hj⟩).time) := by
  intro h
  have h2 := h cexInp cfgA11 reach_cfgA11 0 1 (by decide) (by decide) 0
    (by decide) rfl rfl rfl
  exact absurd h2 (by decide)

/-- C8 as amended: for every request a worker dequeues in its select loop,
the worker first invokes the sink (appending exactly one event), and if
the request carries the delay flag the worker then synchronously sleeps a
full delay window — it can only re-arm the timer once the window has
elapsed — whereas after the seed request's sink call the worker arms the
timer immediately, with no sleep. -/
theorem c8_delay_throttle_amended :
    (∀ (c : Config) (l : Label) (c' : Config) (wid : Nat) (r : Request),
      (c.workers wid).pc = .got r → Step c l c' → l.widOf = some wid →
      l = .wSink wid r ∧
        c'.sinkLog = c.sinkLog ++ [⟨r, .delayer wid, c.now⟩] ∧
        (c'.workers wid).pc = .after r) ∧
    (∀ (c : Config) (l : Label) (c' : Config) (wid : Nat) (r : Request),
      (c.workers wid).pc = .after r → r.NeedsDelay = true →
      Step c l c' → l.widOf = some wid →
      l = .wSleep wid ∧ (c'.workers wid).pc = .sleeping (c.now + delay) ∧
        c'.sinkLog = c.sinkLog) ∧
    (∀ (c : Config) (l : Label) (c' : Config) (wid t : Nat),
      (c.workers wid).pc = .sleeping t → Step c l c' → l.widOf = some wid →
      t ≤ c.now ∧ l = .wWake wid ∧
        (c'.workers wid).pc = .loop (c.now + delay) ∧
        c'.sinkLog = c.sinkLog) ∧
    (∀ (c : Config) (l : Label) (c' : Config) (wid : Nat),
      (c.workers wid).pc = .seedAfter → Step c l c' → l.widOf = some wid →
      l = .wSeedArm wid ∧ (c'.workers wid).pc = .loop (c.now + delay) ∧
        c'.sinkLog = c.sinkLog ∧ c'.now = c.now) := by
  refine ⟨?_, ?_, ?_, ?_⟩
  · intro c l c' wid r hpc hs hw
    exact step_got_classify c l c' wid r hpc hs hw
  · intro c l c' wid r hpc hdl hs hw
    rcases step_after_classify c l c' wid r hpc hs hw with
      ⟨_, h2, h3, h4⟩ | ⟨hdl2, _⟩
    · exact ⟨h2, h3, h4⟩
    · rw [hdl] at hdl2
      exact Bool.noConfusion hdl2
  · intro c l c' wid t hpc hs hw
    exact step_sleeping_classify c l c' wid t hpc hs hw
  · intro c l c' wid hpc hs hw
    exact step_seedAfter_classify c l c' wid hpc hs hw

theorem c8_delay_throttle_amended_witness :
    (Label.wSink 0 rB = Label.wSink 0 rB ∧
      cfgA11.sinkLog = cfgA10.sinkLog ++ [⟨rB, .delayer 0, cfgA10.now⟩] ∧
      (cfgA11.workers 0).pc = .after rB) ∧
    (Label.wSleep 0 = Label.wSleep 0 ∧
      (cfgC2.workers 0).pc = .sleeping (cfgC1.now + delay) ∧
      cfgC2.sinkLog = cfgC1.sinkLog) ∧
    (100 ≤ cfgC3.now ∧ Label.wWake 0 = Label.wWake 0 ∧
      (cfgC4.workers 0).pc = .loop (cfgC3.now + delay) ∧
      cfgC4.sinkLog = cfgC3.sinkLog) ∧
    (Label.wSeedArm 0 = Label.wSeedArm 0 ∧
      (cfgA6.workers 0).pc = .loop (cfgA5.now + delay) ∧
      cfgA6.sinkLog = cfgA5.sinkLog ∧ cfgA6.now = cfgA5.now) :=
  ⟨c8_delay_throttle_amended.1 cfgA10 (.wSink 0 rB) cfgA11 0 rB rfl
      (Step.wSink cfgA10 0 rB (by decide) rfl) rfl,
   c8_delay_throttle_amended.2.1 cfgC1 (.wSleep 0) cfgC2 0 rA rfl rfl
      (Step.wSleep cfgC1 0 rA (by decide) rfl rfl) rfl,
   c8_delay_throttle_amended.2.2.1 cfgC3 (.wWake 0) cfgC4 0 100 rfl
      (Step.wWake cfgC3 0 100 (by decide) rfl (by decide)) rfl,
   c8_delay_throttle_amended.2.2.2 cfgA5 (.wSeedArm 0) cfgA6 0 rfl
      (Step.wSeedArm cfgA5 0 (by decide) rfl) rfl⟩

theorem monitorRun_none (ids : List Int) : ids.foldl monitorStep none = none := by
  induction ids with
  | nil => rfl
  | cons a t ih => exact ih

theorem monitor_some_iff (ids : List Int) (n : Int) :
    (ids.foldl monitorStep (some n)).isSome = true ↔
      ∀ i (h : i < ids.length), ids.get ⟨i, h⟩ = n + i := by
  induction ids generalizing n with
  | nil => simp
  | cons a t ih =>
      rw [List.foldl_cons]
      by_cases ha : n = a
      · subst ha
        rw [show monitorStep (some n) n = some (n + 1) from by simp [monitorStep]]
        rw [ih (n + 1)]
        constructor
        · intro h i hi
          cases i with
          | zero => simp
          | succ j =>
              have hj : j < t.length := Nat.lt_of_succ_lt_succ hi
              have h2 := h j hj
              simp only [List.get_cons_succ]
              rw [h2]
              push_cast
              ring
        · intro h i hi
          have h2 := h (i + 1) (Nat.succ_lt_succ hi)
          simp only [List.get_cons_succ] at h2
          rw [h2]
          push_cast
          ring
      · rw [show monitorStep (some n) a = none from by simp [monitorStep, ha]]
        rw [monitorRun_none]
        simp only [Option.isSome_none, Bool.false_eq_true, false_iff]
        intro h
        have h0 := h 0 (Nat.succ_pos _)
        simp at h0
        exact ha h0.symm

theorem monitor_count (ids : List Int) :
    ∀ (n res : Int), ids.foldl monitorStep (some n) = some res →
      res = n + ids.length := by
  induction ids with
  | nil =>
      intro n res h
      rw [List.foldl_nil] at h
      injection h with h
      simp [← h]
  | cons a t ih =>
      intro n res h
      rw [List.foldl_cons] at h
      by_cases ha : n = a
      · subst ha
        rw [show monitorStep (some n) n = some (n + 1) from by
          simp [monitorStep]] at h
        rw [ih (n + 1) res h, List.length_cons]
        push_cast
        ring
      · rw [show monitorStep (some n) a = none from by
          simp [monitorStep, ha]] at h
        rw [monitorRun_none] at h
        exact Option.noConfusion h

/-- C9: the Ordering Monitor consumes the sequence id of every Execution
Sink invocation from both the direct and the delayed path (its input is
the id of each `sinkLog` event in `checkCh` send order); it accepts a
stream exactly when the ids increase contiguously from 0 — its `nextId`
state always equals the number of ids accepted so far, so it accepts `n`
exactly when `n` ids were accepted before it; it aborts (`none`) on the
first violating id; and since channel misuse provably never occurs, this
abort is the only failure mode of the system. -/
theorem c9_monitor_contiguous :
    (∀ c : Config, (monitorRun (monitorInput c)).isSome = true ↔
      ∀ i (h : i < (monitorInput c).length),
        (monitorInput c).get ⟨i, h⟩ = (i : Int)) ∧
    (∀ (ids : List Int) (n : Int), monitorRun ids = some n →
      n = (ids.length : Int)) ∧
    (∀ (inp : List Request) (c : Config), Reachable inp c →
      c.crashed = false) := by
  refine ⟨?_, ?_, ?_⟩
  · intro c
    have h := monitor_some_iff (monitorInput c) 0
    simpa using h
  · intro ids n h
    have h2 := monitor_count ids 0 n h
    simpa using h2
  · intro inp c h
    exact (inv_reachable h).notCrashed

theorem c9_monitor_contiguous_witness :
    ((monitorRun (monitorInput cfgA11)).isSome = true ↔
      ∀ i (h : i < (monitorInput cfgA11).length),
        (monitorInput cfgA11).get ⟨i, h⟩ = (i : Int)) ∧
    ((1 : Int) = (([0] : List Int).length : Int)) ∧
    (startCfg []).crashed = false :=
  ⟨c9_monitor_contiguous.1 cfgA11,
   c9_monitor_contiguous.2.1 [0] 1 rfl,
   c9_monitor_contiguous.2.2 [] (startCfg []) Relation.ReflTransGen.refl⟩

end DelayCall
